import Mathlib

/-!
Verification of the pathfinding core of `src/project.py`
(`PathfindingVisualizer`): the grid model (`get_neighbors`,
`manhattan_distance`, `create_maze`) and the search engine (`find_path`)
supporting the strategies "astar", "dijkstra" and "greedy".

The Python state relevant to the search is embedded as the structure `PF`
(fields `rows`, `cols`, `grid`, `start`, `fin` mirroring `self.rows`,
`self.cols`, `self.grid`, `self.start`, `self.end`; grid values are
0 = empty, 1 = wall, 2 = start marker, 3 = end marker).  The
`queue.PriorityQueue` of `(priority, node, g_cost)` tuples is embedded as a
list of entries from which `popMin` removes the lexicographically least
tuple, exactly the order Python's heap of integer tuples realizes.  Python
dicts `came_from` / `cost_so_far` are embedded as association lists with
most-recent-binding-first lookup, and the `while` loops are embedded with
an explicit fuel that is proved sufficient.
-/

/-- A grid coordinate `(row, col)`, as used throughout `project.py`. -/
abbrev Cell : Type := Nat × Nat

/-- The fields of `PathfindingVisualizer` read by the search engine
(`__init__`, lines 26-41).  `grid r c` is the value `self.grid[r][c]`;
out-of-bounds coordinates are never consulted by the embedded code because
every access in the source is guarded by a bounds check. -/
structure PF where
  rows : Nat
  cols : Nat
  grid : Nat → Nat → Nat
  start : Cell
  fin : Cell

/-- Lines 94-98: `manhattan_distance`, `abs(b[0]-a[0]) + abs(b[1]-a[1])`. -/
def manhattan_distance (a b : Cell) : Nat :=
  ((b.1 : Int) - (a.1 : Int)).natAbs + ((b.2 : Int) - (a.2 : Int)).natAbs

/-- Lines 84-91: one iteration of the `for dr, dc in ...` loop of
`get_neighbors`: the candidate `(row + dr, col + dc)` when it passes the
bounds-and-wall test of lines 86-90, `none` otherwise. -/
def neighborCheck (s : PF) (row col : Nat) (d : Int × Int) : Option Cell :=
  let new_row : Int := (row : Int) + d.1
  let new_col : Int := (col : Int) + d.2
  if 0 ≤ new_row ∧ new_row < (s.rows : Int) ∧
      0 ≤ new_col ∧ new_col < (s.cols : Int) ∧
      s.grid new_row.toNat new_col.toNat ≠ 1 then
    some (new_row.toNat, new_col.toNat)
  else none

/-- Lines 79-92: `get_neighbors`.  The four cardinal offsets are tried in
the fixed order east, south, west, north; an offset contributes a cell when
it is in bounds and not a wall. -/
def get_neighbors (s : PF) (row col : Nat) : List Cell :=
  [((0 : Int), (1 : Int)), (1, 0), (0, -1), (-1, 0)].filterMap
    (neighborCheck s row col)

/-- Lines 145-151: the priority assigned to a pushed node, as a function of
the algorithm name, `new_cost` and `h_cost`. -/
def priorityOf (algorithm : String) (new_cost h_cost : Nat) : Nat :=
  if algorithm = "astar" then new_cost + h_cost
  else if algorithm = "dijkstra" then new_cost
  else h_cost

/-- Lines 108-114: the priority of the initial frontier entry. -/
def initPriority (s : PF) (algorithm : String) : Nat :=
  if algorithm = "astar" then 0
  else if algorithm = "dijkstra" then 0
  else manhattan_distance s.start s.fin

/-- Python dict lookup (`d.get(k)` / `k in d`): association-list lookup
where the most recent binding (cons'd at the front) shadows older ones. -/
def dictGet {β : Type} (k : Cell) : List (Cell × β) → Option β
  | [] => none
  | (a, b) :: l => if a = k then some b else dictGet k l

/-- A frontier entry `(priority, node, g_cost)` as pushed on line 110/153. -/
abbrev Entry : Type := Nat × Cell × Nat

/-- Lexicographic comparison of entries, the order in which Python compares
the tuples `(priority, (row, col), g_cost)` inside `queue.PriorityQueue`. -/
def entryLe (a b : Entry) : Prop :=
  a.1 < b.1 ∨ (a.1 = b.1 ∧ (a.2.1.1 < b.2.1.1 ∨ (a.2.1.1 = b.2.1.1 ∧
    (a.2.1.2 < b.2.1.2 ∨ (a.2.1.2 = b.2.1.2 ∧ a.2.2 ≤ b.2.2)))))

instance (a b : Entry) : Decidable (entryLe a b) :=
  inferInstanceAs (Decidable (a.1 < b.1 ∨ (a.1 = b.1 ∧ (a.2.1.1 < b.2.1.1 ∨
    (a.2.1.1 = b.2.1.1 ∧ (a.2.1.2 < b.2.1.2 ∨
      (a.2.1.2 = b.2.1.2 ∧ a.2.2 ≤ b.2.2)))))))

/-- `frontier.get()`: remove and return the least entry of the priority
queue (`none` when the queue is empty).  Among equal least tuples the
leftmost is taken; equal tuples are indistinguishable, so this matches any
heap order Python may realize. -/
def popMin : List Entry → Option (Entry × List Entry)
  | [] => none
  | e :: es =>
    match popMin es with
    | none => some (e, [])
    | some (m, rest) => if entryLe e m then some (e, es) else some (m, e :: rest)

/-- The local state of one `find_path` invocation (lines 104-118):
`explored`, the frontier, `came_from`, `cost_so_far` and `visited`. -/
structure SState where
  explored : List Cell
  frontier : List Entry
  came_from : List (Cell × Option Cell)
  cost_so_far : List (Cell × Nat)
  visited : List Cell

/-- Lines 136-154: the body of the `for next_pos in ...` loop of
`find_path`: skip walls (line 136-137), compute `new_cost` (line 139) and,
when `next_pos` is new or improved (line 141), record the cost and
predecessor and push it with its strategy priority (lines 142-154). -/
def relaxStep (s : PF) (algorithm : String) (current : Cell)
    (st1 : SState) (next_pos : Cell) : SState :=
  if s.grid next_pos.1 next_pos.2 = 1 then st1
  else
    let new_cost := (dictGet current st1.cost_so_far).getD 0 + 1
    let improves : Bool :=
      match dictGet next_pos st1.cost_so_far with
      | none => true
      | some old => decide (new_cost < old)
    if improves then
      let h_cost := manhattan_distance next_pos s.fin
      let priority := priorityOf algorithm new_cost h_cost
      { st1 with
        cost_so_far := (next_pos, new_cost) :: st1.cost_so_far,
        frontier := st1.frontier ++ [(priority, next_pos, new_cost)],
        came_from := (next_pos, some current) :: st1.came_from }
    else st1

/-- Lines 135-154: the `for next_pos in self.get_neighbors(*current)` loop
of `find_path`, processing all neighbors of the popped cell. -/
def expand (s : PF) (algorithm : String) (current : Cell) (st : SState) : SState :=
  (get_neighbors s current.1 current.2).foldl (relaxStep s algorithm current) st

/-- Lines 120-154: the `while not frontier.empty()` loop of `find_path`,
with an explicit fuel bound on the number of iterations (proved sufficient
below: the loop pops one entry per iteration and pushes at most four
entries per first visit of a cell). -/
def searchLoop (s : PF) (algorithm : String) : Nat → SState → SState
  | 0, st => st
  | Nat.succ fuel, st =>
    match popMin st.frontier with
    | none => st
    | some ((_, current, _), rest) =>
      let st1 : SState := { st with frontier := rest }
      if current ∈ st1.visited then searchLoop s algorithm fuel st1
      else
        let st2 : SState := { st1 with visited := current :: st1.visited }
        if s.grid current.1 current.2 = 1 then searchLoop s algorithm fuel st2
        else
          let st3 : SState := { st2 with explored := st2.explored ++ [current] }
          if current = s.fin then st3
          else searchLoop s algorithm fuel (expand s algorithm current st3)

/-- Lines 104-118: the state of `find_path` just before the while loop. -/
def initState (s : PF) (algorithm : String) : SState :=
  { explored := []
    frontier := [(initPriority s algorithm, s.start, 0)]
    came_from := [(s.start, none)]
    cost_so_far := [(s.start, 0)]
    visited := [] }

/-- Lines 157-162: the `while current is not None` reconstruction loop,
accumulating the path from `end` backwards; `came_from.get(current)` is
`none` both for a missing key and for the stored `None` (at `start`),
either of which stops the walk.  The fuel bound is proved sufficient. -/
def reconstructAux (cf : List (Cell × Option Cell)) : Nat → Option Cell → List Cell
  | _, none => []
  | 0, some c => [c]
  | Nat.succ fuel, some c => c :: reconstructAux cf fuel ((dictGet c cf).getD none)

/-- Lines 100-168: `find_path`.  Runs the search loop, reconstructs the
path backwards from `end`, reverses it and applies the final validity
check of line 165, returning `(path or None, explored)`. -/
def find_path (s : PF) (algorithm : String) : Option (List Cell) × List Cell :=
  let st := searchLoop s algorithm (4 * s.rows * s.cols + 1) (initState s algorithm)
  let path := (reconstructAux st.came_from (st.came_from.length + 2) (some s.fin)).reverse
  if path ≠ [] ∧ path.head? = some s.start ∧ ∀ c ∈ path, s.grid c.1 c.2 ≠ 1 then
    (some path, st.explored)
  else
    (none, st.explored)

/-- `find_path` as a state transformer on the visualizer fields it can see:
the method body (lines 100-168) contains no assignment to `self.grid`,
`self.start` or `self.end` (it introduces only the locals `start`, `end`,
`explored`, `frontier`, `came_from`, `cost_so_far`, `visited`, `path`,
`current`), so the embedded method returns its receiver unchanged. -/
def find_path_run (s : PF) (algorithm : String) :
    (Option (List Cell) × List Cell) × PF :=
  (find_path s algorithm, s)

/-- Lines 51-77: `create_maze`, building the 15 x 20 wall layout as a list
of rows.  `set2 g r c v` is the assignment `g[r][c] = v`. -/
def set2 (g : List (List Nat)) (r c v : Nat) : List (List Nat) :=
  g.set r ((g.getD r []).set c v)

/-- Lines 51-77 of `project.py`: the maze grid of the visualizer, built
with `rows = 15`, `cols = 20`, `start = (1, 1)`, `end = (13, 18)`. -/
def create_maze : List (List Nat) :=
  let g0 : List (List Nat) := List.replicate 15 (List.replicate 20 0)
  let g1 := (List.range' 2 16).foldl
    (fun g i => set2 (set2 (set2 (set2 g 2 i 1) 3 i 1) 8 i 1) 12 i 1) g0
  let g2 := (List.range' 2 11).foldl
    (fun g i => set2 (set2 (set2 g i 5 1) i 10 1) i 15 1) g1
  let g3 := (List.range' 3 4).foldl
    (fun g i => set2 (set2 g 6 i 1) 10 (i + 8) 1) g2
  set2 (set2 g3 1 1 2) 13 18 3

/-- The `PathfindingVisualizer` state after `__init__` (lines 24-49). -/
def mazePF : PF :=
  { rows := 15
    cols := 20
    grid := fun r c => (create_maze.getD r []).getD c 0
    start := (1, 1)
    fin := (13, 18) }

/-! ## Specification-side notions

The graph the claims quantify over: cells are 4-adjacent, in bounds and
not walls. -/

/-- `c` lies inside the `rows x cols` grid. -/
def inBounds (s : PF) (c : Cell) : Prop :=
  c.1 < s.rows ∧ c.2 < s.cols

instance (s : PF) (c : Cell) : Decidable (inBounds s c) :=
  inferInstanceAs (Decidable (c.1 < s.rows ∧ c.2 < s.cols))

/-- A path in the sense of the claims: a sequence of in-bounds non-wall
cells each consecutive pair of which is 4-adjacent (successor returned by
`get_neighbors` of its predecessor). -/
def ValidPath (s : PF) (P : List Cell) : Prop :=
  (∀ c ∈ P, inBounds s c ∧ s.grid c.1 c.2 ≠ 1) ∧
    P.Chain' (fun a b => b ∈ get_neighbors s a.1 a.2)

instance (s : PF) (P : List Cell) : Decidable (ValidPath s P) :=
  inferInstanceAs (Decidable ((∀ c ∈ P, inBounds s c ∧ s.grid c.1 c.2 ≠ 1) ∧
    P.Chain' (fun (a b : Cell) => b ∈ get_neighbors s a.1 a.2)))

/-- The end cell is reachable from the start cell through 4-adjacent
in-bounds non-wall cells. -/
def Reachable (s : PF) : Prop :=
  ∃ P, ValidPath s P ∧ P.head? = some s.start ∧ P.getLast? = some s.fin

/-- Invariant of the search loop state, independent of the strategy and of
whether the popped cell has been expanded yet. -/
structure CoreInv (s : PF) (st : SState) : Prop where
  start_inb : inBounds s s.start
  start_nw : s.grid s.start.1 s.start.2 ≠ 1
  frontier_wf : ∀ e ∈ st.frontier, inBounds s e.2.1 ∧ s.grid e.2.1.1 e.2.1.2 ≠ 1 ∧
    ∃ k, dictGet e.2.1 st.cost_so_far = some k ∧ k ≤ e.2.2
  visited_wf : ∀ c ∈ st.visited, inBounds s c ∧ s.grid c.1 c.2 ≠ 1 ∧ c ∈ st.explored
  visited_nodup : st.visited.Nodup
  visited_cost : ∀ c ∈ st.visited, (dictGet c st.cost_so_far).isSome = true
  explored_sub : ∀ c ∈ st.explored, c ∈ st.visited
  explored_nodup : st.explored.Nodup
  cost_start : dictGet s.start st.cost_so_far = some 0
  came_start : dictGet s.start st.came_from = some none
  came_none : ∀ c, dictGet c st.came_from = some none → c = s.start
  came_cost : ∀ c, (dictGet c st.came_from).isSome = (dictGet c st.cost_so_far).isSome
  came_step : ∀ c q, dictGet c st.came_from = some (some q) →
    c ∈ get_neighbors s q.1 q.2 ∧ inBounds s q ∧ s.grid q.1 q.2 ≠ 1 ∧
    ∃ kc kq, dictGet c st.cost_so_far = some kc ∧
      dictGet q st.cost_so_far = some kq ∧ kq + 1 ≤ kc
  cost_real : ∀ c k, dictGet c st.cost_so_far = some k →
    ∃ P, ValidPath s P ∧ P.head? = some s.start ∧ P.getLast? = some c ∧
      P.length ≤ k + 1
  unvisited_frontier : ∀ c k, c ∉ st.visited → dictGet c st.cost_so_far = some k →
    ∃ p, (p, c, k) ∈ st.frontier
  lens_eq : st.came_from.length = st.cost_so_far.length
  cost_le_len : ∀ c k, dictGet c st.cost_so_far = some k → k + 1 ≤ st.cost_so_far.length

/-- The full between-iterations invariant: additionally, every visited cell
has been fully expanded, so all its neighbors carry recorded costs. -/
structure BaseInv (s : PF) (st : SState) extends CoreInv s st : Prop where
  visited_closed : ∀ a ∈ st.visited, ∀ b ∈ get_neighbors s a.1 a.2,
    (dictGet b st.cost_so_far).isSome = true

/-- Strategy-dependent invariant for A* (`eps = 1`) and Dijkstra
(`eps = 0`): every frontier entry carries priority `g + eps * h` (except the
initial start entry, which carries priority 0), and every visited cell's
recorded cost is optimal. -/
structure CoreOpt (s : PF) (eps : Nat) (st : SState) : Prop where
  frontier_pri : ∀ e ∈ st.frontier,
    e.1 = e.2.2 + eps * manhattan_distance e.2.1 s.fin ∨
      (e.2.1 = s.start ∧ e.2.2 = 0 ∧ e.1 = 0)
  visited_opt : ∀ a ∈ st.visited, ∀ k, dictGet a st.cost_so_far = some k →
    ∀ P, ValidPath s P → P.head? = some s.start → P.getLast? = some a →
      k + 1 ≤ P.length

/-- The full strategy invariant between iterations: additionally, the
recorded cost of each neighbor of a visited cell is within one of the
visited cell's cost. -/
structure OptInv (s : PF) (eps : Nat) (st : SState) extends CoreOpt s eps st : Prop where
  visited_closed_le : ∀ a ∈ st.visited, ∀ k, dictGet a st.cost_so_far = some k →
    ∀ b ∈ get_neighbors s a.1 a.2,
      ∃ kb, dictGet b st.cost_so_far = some kb ∧ kb ≤ k + 1

/-- What one relaxation step preserves and produces, for the fold over the
neighbor list. -/
structure RelaxOut (s : PF) (cur : Cell) (kcur : Nat) (st1 post : SState) : Prop where
  core : CoreInv s post
  cost_cur : dictGet cur post.cost_so_far = some kcur
  vis_eq : post.visited = st1.visited
  exp_eq : post.explored = st1.explored
  cost_mono : ∀ c k, dictGet c st1.cost_so_far = some k →
    ∃ k', dictGet c post.cost_so_far = some k' ∧ k' ≤ k
  frontier_len : post.frontier.length ≤ st1.frontier.length + 1
  frontier_old : ∀ e ∈ st1.frontier, e ∈ post.frontier

/-- What the whole neighbor fold preserves and produces. -/
structure ExpandOut (s : PF) (cur : Cell) (kcur : Nat) (st1 post : SState)
    (nL : Nat) : Prop where
  core : CoreInv s post
  cost_cur : dictGet cur post.cost_so_far = some kcur
  vis_eq : post.visited = st1.visited
  exp_eq : post.explored = st1.explored
  cost_mono : ∀ c k, dictGet c st1.cost_so_far = some k →
    ∃ k', dictGet c post.cost_so_far = some k' ∧ k' ≤ k
  frontier_old : ∀ e ∈ st1.frontier, e ∈ post.frontier
  frontier_len : post.frontier.length ≤ st1.frontier.length + nL

/-- Termination measure of the while loop: pending frontier entries plus
four budget units per not-yet-visited cell (each first visit pushes at most
four entries). -/
def measureOf (s : PF) (st : SState) : Nat :=
  st.frontier.length + 4 * (s.rows * s.cols - st.visited.length)

/-- The state right after a fresh non-wall cell is popped and recorded
(frontier shrunk, cell visited and appended to the exploration trace). -/
def freshState (st : SState) (cur : Cell) (rest : List Entry) : SState :=
  { st with
    frontier := rest,
    visited := cur :: st.visited,
    explored := st.explored ++ [cur] }

/-- The final loop state inside `find_path`. -/
def runState (s : PF) (alg : String) : SState :=
  searchLoop s alg (4 * s.rows * s.cols + 1) (initState s alg)

/-- The backward-reconstructed, reversed candidate path inside `find_path`. -/
def rawPath (s : PF) (alg : String) : List Cell :=
  (reconstructAux (runState s alg).came_from
    ((runState s alg).came_from.length + 2) (some s.fin)).reverse

/-- A cell with a valid connecting path from the start. -/
def ReachableCell (s : PF) (c : Cell) : Prop :=
  ∃ P, ValidPath s P ∧ P.head? = some s.start ∧ P.getLast? = some c

/-- Executable chain check used to evaluate `List.Chain'` on concrete
paths. -/
def chainB (R : Cell → Cell → Bool) : List Cell → Bool
  | [] => true
  | [_] => true
  | a :: b :: l => R a b && chainB R (b :: l)

/-- A 1 x 2 all-free grid used as a concrete witness instance. -/
def tinyPF : PF :=
  { rows := 1, cols := 2, grid := fun _ _ => 0, start := (0, 0), fin := (0, 1) }

/-- A 1 x 1 all-free grid whose start and end coincide. -/
def unitPF : PF :=
  { rows := 1, cols := 1, grid := fun _ _ => 0, start := (0, 0), fin := (0, 0) }

/-! ## Priority queue lemmas -/

theorem entryLe_refl (a : Entry) : entryLe a a := by
  obtain ⟨p, ⟨r, c⟩, g⟩ := a; unfold entryLe; omega

theorem entryLe_trans {a b c : Entry} (hab : entryLe a b) (hbc : entryLe b c) :
    entryLe a c := by
  obtain ⟨p1, ⟨r1, c1⟩, g1⟩ := a
  obtain ⟨p2, ⟨r2, c2⟩, g2⟩ := b
  obtain ⟨p3, ⟨r3, c3⟩, g3⟩ := c
  unfold entryLe at *; omega

theorem entryLe_total (a b : Entry) : entryLe a b ∨ entryLe b a := by
  obtain ⟨p1, ⟨r1, c1⟩, g1⟩ := a
  obtain ⟨p2, ⟨r2, c2⟩, g2⟩ := b
  unfold entryLe; omega

theorem entryLe_pri {a b : Entry} (h : entryLe a b) : a.1 ≤ b.1 := by
  obtain ⟨p1, ⟨r1, c1⟩, g1⟩ := a
  obtain ⟨p2, ⟨r2, c2⟩, g2⟩ := b
  unfold entryLe at h; simp only at *; omega

theorem popMin_nil : popMin [] = none := rfl

theorem popMin_eq_none {l : List Entry} (h : popMin l = none) : l = [] := by
  cases l with
  | nil => rfl
  | cons e es =>
    unfold popMin at h
    rcases hes : popMin es with _ | ⟨m, rest⟩ <;> simp [hes] at h
    split at h <;> simp at h

theorem popMin_isSome {l : List Entry} (h : l ≠ []) :
    ∃ m rest, popMin l = some (m, rest) := by
  rcases hl : popMin l with _ | ⟨m, rest⟩
  · exact absurd (popMin_eq_none hl) h
  · exact ⟨m, rest, rfl⟩

theorem popMin_mem {l : List Entry} {m : Entry} {rest : List Entry}
    (h : popMin l = some (m, rest)) : m ∈ l := by
  induction l generalizing m rest with
  | nil => simp [popMin] at h
  | cons e es ih =>
    unfold popMin at h
    rcases hes : popMin es with _ | ⟨m', rest'⟩ <;> rw [hes] at h
    · simp at h; obtain ⟨rfl, rfl⟩ := h; simp
    · simp only at h
      split at h
      · simp at h; obtain ⟨rfl, rfl⟩ := h; simp
      · simp at h; obtain ⟨rfl, rfl⟩ := h
        exact List.mem_cons_of_mem _ (ih hes)

theorem popMin_length {l : List Entry} {m : Entry} {rest : List Entry}
    (h : popMin l = some (m, rest)) : rest.length + 1 = l.length := by
  induction l generalizing m rest with
  | nil => simp [popMin] at h
  | cons e es ih =>
    unfold popMin at h
    rcases hes : popMin es with _ | ⟨m', rest'⟩ <;> rw [hes] at h
    · simp at h; obtain ⟨rfl, rfl⟩ := h
      have : es = [] := popMin_eq_none hes
      simp [this]
    · simp only at h
      split at h
      · simp at h; obtain ⟨rfl, rfl⟩ := h; simp
      · simp at h; obtain ⟨rfl, rfl⟩ := h
        have := ih hes
        simp only [List.length_cons] at *; omega

theorem popMin_subset {l : List Entry} {m : Entry} {rest : List Entry}
    (h : popMin l = some (m, rest)) : ∀ e ∈ rest, e ∈ l := by
  induction l generalizing m rest with
  | nil => simp [popMin] at h
  | cons e es ih =>
    unfold popMin at h
    rcases hes : popMin es with _ | ⟨m', rest'⟩ <;> rw [hes] at h
    · simp at h; obtain ⟨rfl, rfl⟩ := h; intro x hx; simp at hx
    · simp only at h
      split at h
      · simp at h; obtain ⟨rfl, rfl⟩ := h
        intro x hx; exact List.mem_cons_of_mem _ hx
      · simp at h; obtain ⟨rfl, rfl⟩ := h
        intro x hx
        rcases List.mem_cons.mp hx with hx | hx
        · simp [hx]
        · exact List.mem_cons_of_mem _ (ih hes _ hx)

theorem popMin_cover {l : List Entry} {m : Entry} {rest : List Entry}
    (h : popMin l = some (m, rest)) : ∀ e ∈ l, e = m ∨ e ∈ rest := by
  induction l generalizing m rest with
  | nil => simp [popMin] at h
  | cons e es ih =>
    unfold popMin at h
    rcases hes : popMin es with _ | ⟨m', rest'⟩ <;> rw [hes] at h
    · simp at h; obtain ⟨rfl, rfl⟩ := h
      have : es = [] := popMin_eq_none hes
      subst this
      intro x hx; simp at hx; left; exact hx
    · simp only at h
      split at h
      · simp at h; obtain ⟨rfl, rfl⟩ := h
        intro x hx
        rcases List.mem_cons.mp hx with hx | hx
        · left; exact hx
        · right; exact hx
      · simp at h; obtain ⟨rfl, rfl⟩ := h
        intro x hx
        rcases List.mem_cons.mp hx with hx | hx
        · right; simp [hx]
        · rcases ih hes _ hx with hx' | hx'
          · left; exact hx'
          · right; exact List.mem_cons_of_mem _ hx'

theorem popMin_min {l : List Entry} {m : Entry} {rest : List Entry}
    (h : popMin l = some (m, rest)) : ∀ e ∈ l, entryLe m e := by
  induction l generalizing m rest with
  | nil => simp [popMin] at h
  | cons e es ih =>
    unfold popMin at h
    rcases hes : popMin es with _ | ⟨m', rest'⟩ <;> rw [hes] at h
    · simp at h; obtain ⟨rfl, rfl⟩ := h
      have : es = [] := popMin_eq_none hes
      subst this
      intro x hx; simp at hx; rw [hx]; exact entryLe_refl _
    · simp only at h
      split at h
      · rename_i hle
        simp at h; obtain ⟨rfl, rfl⟩ := h
        intro x hx
        rcases List.mem_cons.mp hx with hx | hx
        · rw [hx]; exact entryLe_refl _
        · exact entryLe_trans hle (ih hes _ hx)
      · rename_i hle
        simp at h; obtain ⟨rfl, rfl⟩ := h
        intro x hx
        rcases List.mem_cons.mp hx with hx | hx
        · rw [hx]
          rcases entryLe_total e m' with h' | h'
          · exact absurd h' hle
          · exact h'
        · exact ih hes _ hx

/-! ## Dictionary lemmas -/

theorem dictGet_cons {β : Type} (a k : Cell) (b : β) (l : List (Cell × β)) :
    dictGet k ((a, b) :: l) = if a = k then some b else dictGet k l := rfl

theorem dictGet_self {β : Type} (k : Cell) (b : β) (l : List (Cell × β)) :
    dictGet k ((k, b) :: l) = some b := by simp [dictGet_cons]

theorem dictGet_ne {β : Type} {a k : Cell} (h : a ≠ k) (b : β) (l : List (Cell × β)) :
    dictGet k ((a, b) :: l) = dictGet k l := by simp [dictGet_cons, h]

/-! ## Neighbor lemmas -/

theorem filterMap_four {α β : Type} (f : α → Option β) (a b c d : α) :
    List.filterMap f [a, b, c, d] =
      (f a).toList ++ (f b).toList ++ (f c).toList ++ (f d).toList := by
  rcases hfa : f a <;> rcases hfb : f b <;> rcases hfc : f c <;> rcases hfd : f d <;>
    simp [List.filterMap_cons, hfa, hfb, hfc, hfd]

theorem neighborCheck_east (s : PF) (row col : Nat) :
    neighborCheck s row col (0, 1) =
      if row < s.rows ∧ col + 1 < s.cols ∧ s.grid row (col + 1) ≠ 1
      then some (row, col + 1) else none := by
  unfold neighborCheck
  have e1 : ((row : Int) + 0).toNat = row := by omega
  have e2 : ((col : Int) + 1).toNat = col + 1 := by omega
  simp only [e1, e2]
  by_cases h : row < s.rows ∧ col + 1 < s.cols ∧ s.grid row (col + 1) ≠ 1
  · rw [if_pos, if_pos h]
    exact ⟨by omega, by omega, by omega, by omega, h.2.2⟩
  · rw [if_neg, if_neg h]
    intro hc
    exact h ⟨by omega, by omega, hc.2.2.2.2⟩

theorem neighborCheck_south (s : PF) (row col : Nat) :
    neighborCheck s row col (1, 0) =
      if row + 1 < s.rows ∧ col < s.cols ∧ s.grid (row + 1) col ≠ 1
      then some (row + 1, col) else none := by
  unfold neighborCheck
  have e1 : ((row : Int) + 1).toNat = row + 1 := by omega
  have e2 : ((col : Int) + 0).toNat = col := by omega
  simp only [e1, e2]
  by_cases h : row + 1 < s.rows ∧ col < s.cols ∧ s.grid (row + 1) col ≠ 1
  · rw [if_pos, if_pos h]
    exact ⟨by omega, by omega, by omega, by omega, h.2.2⟩
  · rw [if_neg, if_neg h]
    intro hc
    exact h ⟨by omega, by omega, hc.2.2.2.2⟩

theorem neighborCheck_west (s : PF) (row col : Nat) :
    neighborCheck s row col (0, -1) =
      if row < s.rows ∧ 1 ≤ col ∧ col - 1 < s.cols ∧ s.grid row (col - 1) ≠ 1
      then some (row, col - 1) else none := by
  unfold neighborCheck
  have e1 : ((row : Int) + 0).toNat = row := by omega
  have e2 : ((col : Int) + -1).toNat = col - 1 := by omega
  simp only [e1, e2]
  by_cases h : row < s.rows ∧ 1 ≤ col ∧ col - 1 < s.cols ∧ s.grid row (col - 1) ≠ 1
  · rw [if_pos, if_pos h]
    exact ⟨by omega, by omega, by omega, by omega, h.2.2.2⟩
  · rw [if_neg, if_neg h]
    intro hc
    exact h ⟨by omega, by omega, by omega, hc.2.2.2.2⟩

theorem neighborCheck_north (s : PF) (row col : Nat) :
    neighborCheck s row col (-1, 0) =
      if 1 ≤ row ∧ row - 1 < s.rows ∧ col < s.cols ∧ s.grid (row - 1) col ≠ 1
      then some (row - 1, col) else none := by
  unfold neighborCheck
  have e1 : ((row : Int) + -1).toNat = row - 1 := by omega
  have e2 : ((col : Int) + 0).toNat = col := by omega
  simp only [e1, e2]
  by_cases h : 1 ≤ row ∧ row - 1 < s.rows ∧ col < s.cols ∧ s.grid (row - 1) col ≠ 1
  · rw [if_pos, if_pos h]
    exact ⟨by omega, by omega, by omega, by omega, h.2.2.2⟩
  · rw [if_neg, if_neg h]
    intro hc
    exact h ⟨by omega, by omega, by omega, hc.2.2.2.2⟩

/-- The neighbor list written out: the east, south, west, north candidates
in this order, each present exactly when in bounds and not a wall. -/
theorem get_neighbors_eq (s : PF) (row col : Nat) :
    get_neighbors s row col =
      (if row < s.rows ∧ col + 1 < s.cols ∧ s.grid row (col + 1) ≠ 1
        then [(row, col + 1)] else []) ++
      (if row + 1 < s.rows ∧ col < s.cols ∧ s.grid (row + 1) col ≠ 1
        then [(row + 1, col)] else []) ++
      (if row < s.rows ∧ 1 ≤ col ∧ col - 1 < s.cols ∧ s.grid row (col - 1) ≠ 1
        then [(row, col - 1)] else []) ++
      (if 1 ≤ row ∧ row - 1 < s.rows ∧ col < s.cols ∧ s.grid (row - 1) col ≠ 1
        then [(row - 1, col)] else []) := by
  unfold get_neighbors
  rw [filterMap_four, neighborCheck_east, neighborCheck_south,
    neighborCheck_west, neighborCheck_north]
  congr 1
  rotate_left
  · split <;> simp
  congr 1
  rotate_left
  · split <;> simp
  congr 1 <;> (split <;> simp)

/-- Membership characterization of `get_neighbors`: precisely the
4-adjacent, in-bounds, non-wall cells. -/
theorem mem_get_neighbors {s : PF} {row col : Nat} {b : Cell} :
    b ∈ get_neighbors s row col ↔
      inBounds s b ∧ s.grid b.1 b.2 ≠ 1 ∧
        ((b.1 = row ∧ b.2 = col + 1) ∨ (b.1 = row + 1 ∧ b.2 = col) ∨
          (b.1 = row ∧ b.2 + 1 = col) ∨ (b.1 + 1 = row ∧ b.2 = col)) := by
  obtain ⟨br, bc⟩ := b
  rw [get_neighbors_eq]
  simp only [List.mem_append]
  constructor
  · intro hmem
    rcases hmem with ((h | h) | h) | h
    · revert h; split
      · rename_i hP
        intro h; simp at h; obtain ⟨rfl, rfl⟩ := h
        exact ⟨⟨hP.1, hP.2.1⟩, hP.2.2, Or.inl ⟨rfl, rfl⟩⟩
      · intro h; simp at h
    · revert h; split
      · rename_i hP
        intro h; simp at h; obtain ⟨rfl, rfl⟩ := h
        exact ⟨⟨hP.1, hP.2.1⟩, hP.2.2, Or.inr (Or.inl ⟨rfl, rfl⟩)⟩
      · intro h; simp at h
    · revert h; split
      · rename_i hP
        intro h; simp at h; obtain ⟨rfl, rfl⟩ := h
        exact ⟨⟨hP.1, hP.2.2.1⟩, hP.2.2.2,
          Or.inr (Or.inr (Or.inl ⟨rfl, by omega⟩))⟩
      · intro h; simp at h
    · revert h; split
      · rename_i hP
        intro h; simp at h; obtain ⟨rfl, rfl⟩ := h
        exact ⟨⟨hP.2.1, hP.2.2.1⟩, hP.2.2.2,
          Or.inr (Or.inr (Or.inr ⟨by omega, rfl⟩))⟩
      · intro h; simp at h
  · intro hx
    obtain ⟨⟨hr, hc⟩, hw, hadj⟩ := hx
    rcases hadj with ⟨h1, h2⟩ | ⟨h1, h2⟩ | ⟨h1, h2⟩ | ⟨h1, h2⟩
    · subst h1; subst h2
      refine Or.inl (Or.inl (Or.inl ?_))
      rw [if_pos ⟨hr, hc, hw⟩]; simp
    · subst h1; subst h2
      refine Or.inl (Or.inl (Or.inr ?_))
      rw [if_pos ⟨hr, hc, hw⟩]; simp
    · subst h1; subst h2
      refine Or.inl (Or.inr ?_)
      have hcond : br < s.rows ∧ 1 ≤ bc + 1 ∧ bc + 1 - 1 < s.cols ∧
          s.grid br (bc + 1 - 1) ≠ 1 := by
        refine ⟨hr, by omega, by omega, ?_⟩
        simpa using hw
      rw [if_pos hcond]; simp
    · subst h1; subst h2
      refine Or.inr ?_
      have hcond : 1 ≤ br + 1 ∧ br + 1 - 1 < s.rows ∧ bc < s.cols ∧
          s.grid (br + 1 - 1) bc ≠ 1 := by
        refine ⟨by omega, by omega, hc, ?_⟩
        simpa using hw
      rw [if_pos hcond]; simp

/-- `get_neighbors` returns at most four cells. -/
theorem get_neighbors_length_le (s : PF) (row col : Nat) :
    (get_neighbors s row col).length ≤ 4 := by
  rw [get_neighbors_eq]
  simp only [List.length_append]
  have h1 : ∀ (p : Prop) [Decidable p] (x : Cell),
      (if p then [x] else []).length ≤ 1 := by
    intro p _ x; split <;> simp
  have := h1 (row < s.rows ∧ col + 1 < s.cols ∧ s.grid row (col + 1) ≠ 1)
    (row, col + 1)
  have := h1 (row + 1 < s.rows ∧ col < s.cols ∧ s.grid (row + 1) col ≠ 1)
    (row + 1, col)
  have := h1 (row < s.rows ∧ 1 ≤ col ∧ col - 1 < s.cols ∧ s.grid row (col - 1) ≠ 1)
    (row, col - 1)
  have := h1 (1 ≤ row ∧ row - 1 < s.rows ∧ col < s.cols ∧ s.grid (row - 1) col ≠ 1)
    (row - 1, col)
  omega

/-- A cell is never its own neighbor. -/
theorem not_mem_get_neighbors_self (s : PF) (c : Cell) :
    c ∉ get_neighbors s c.1 c.2 := by
  intro h
  rw [mem_get_neighbors] at h
  obtain ⟨-, -, hadj⟩ := h
  omega

/-- Every neighbor is in bounds and not a wall. -/
theorem get_neighbors_inBounds {s : PF} {row col : Nat} {b : Cell}
    (h : b ∈ get_neighbors s row col) :
    inBounds s b ∧ s.grid b.1 b.2 ≠ 1 :=
  ⟨(mem_get_neighbors.mp h).1, (mem_get_neighbors.mp h).2.1⟩

/-- 4-adjacency is symmetric: if `b` is a neighbor of `a` and `a` itself is
in bounds and not a wall, then `a` is a neighbor of `b`. -/
theorem get_neighbors_symm {s : PF} {a b : Cell}
    (hb : b ∈ get_neighbors s a.1 a.2) (ha1 : inBounds s a)
    (ha2 : s.grid a.1 a.2 ≠ 1) : a ∈ get_neighbors s b.1 b.2 := by
  rw [mem_get_neighbors] at hb ⊢
  obtain ⟨-, -, hadj⟩ := hb
  exact ⟨ha1, ha2, by omega⟩

/-- Consistency of the Manhattan heuristic on the unit-cost grid: moving to
a neighbor changes the Manhattan distance to a fixed cell by at most one. -/
theorem manhattan_consistent {s : PF} {a b : Cell} (t : Cell)
    (h : b ∈ get_neighbors s a.1 a.2) :
    manhattan_distance a t ≤ manhattan_distance b t + 1 := by
  rw [mem_get_neighbors] at h
  obtain ⟨-, -, hadj⟩ := h
  unfold manhattan_distance
  rcases hadj with ⟨h1, h2⟩ | ⟨h1, h2⟩ | ⟨h1, h2⟩ | ⟨h1, h2⟩ <;> omega

/-! ## Path lemmas -/

theorem validPath_singleton {s : PF} {c : Cell} (h1 : inBounds s c)
    (h2 : s.grid c.1 c.2 ≠ 1) : ValidPath s [c] := by
  constructor
  · intro x hx; simp at hx; subst hx; exact ⟨h1, h2⟩
  · simp

theorem validPath_append_one {s : PF} {P : List Cell} {a b : Cell}
    (hP : ValidPath s P) (hlast : P.getLast? = some a)
    (hb : b ∈ get_neighbors s a.1 a.2) : ValidPath s (P ++ [b]) := by
  obtain ⟨hmem, hch⟩ := hP
  constructor
  · intro x hx
    rcases List.mem_append.mp hx with hx | hx
    · exact hmem x hx
    · simp at hx; subst hx
      exact get_neighbors_inBounds hb
  · rw [List.chain'_append]
    refine ⟨hch, by simp, ?_⟩
    intro x hx y hy
    simp at hy; subst hy
    rw [hlast] at hx; simp at hx; subst hx
    exact hb

theorem validPath_append_left {s : PF} {P Q : List Cell}
    (h : ValidPath s (P ++ Q)) : ValidPath s P := by
  obtain ⟨hmem, hch⟩ := h
  exact ⟨fun x hx => hmem x (List.mem_append.mpr (Or.inl hx)),
    (List.chain'_append.mp hch).1⟩

theorem validPath_append_right {s : PF} {P Q : List Cell}
    (h : ValidPath s (P ++ Q)) : ValidPath s Q := by
  obtain ⟨hmem, hch⟩ := h
  exact ⟨fun x hx => hmem x (List.mem_append.mpr (Or.inr hx)),
    (List.chain'_append.mp hch).2.1⟩

/-- Split a list at its first element outside `V` (if any). -/
theorem exists_first_split {α : Type} [DecidableEq α] (V : List α) :
    ∀ P : List α, (∀ x ∈ P, x ∈ V) ∨
      ∃ P1 b P2, P = P1 ++ b :: P2 ∧ (∀ x ∈ P1, x ∈ V) ∧ b ∉ V := by
  intro P
  induction P with
  | nil => left; intro x hx; simp at hx
  | cons a P ih =>
    by_cases ha : a ∈ V
    · rcases ih with h | ⟨P1, b, P2, rfl, h1, h2⟩
      · left; intro x hx
        rcases List.mem_cons.mp hx with rfl | hx
        · exact ha
        · exact h x hx
      · right
        refine ⟨a :: P1, b, P2, rfl, ?_, h2⟩
        intro x hx
        rcases List.mem_cons.mp hx with rfl | hx
        · exact ha
        · exact h1 x hx
    · right
      exact ⟨[], a, P, rfl, by simp, ha⟩

/-- Along a chain of neighbor steps, a heuristic of the form
`ε * manhattan_distance · t` with `ε ≤ 1` decreases by at most one per
step: the consistency inequality summed along the path. -/
theorem manhattan_chain {s : PF} {ε : Nat} (hε : ε ≤ 1) (t : Cell) :
    ∀ Q : List Cell, Q.Chain' (fun a b => b ∈ get_neighbors s a.1 a.2) →
      ∀ b c, Q.head? = some b → Q.getLast? = some c →
        ε * manhattan_distance b t ≤ (Q.length - 1) + ε * manhattan_distance c t := by
  intro Q
  induction Q with
  | nil => intro _ b c hb; simp at hb
  | cons x Q ih =>
    intro hch b c hb hc
    simp at hb; subst hb
    cases Q with
    | nil =>
      simp at hc; subst hc; simp
    | cons y Q' =>
      have hxy : y ∈ get_neighbors s x.1 x.2 := (List.chain'_cons.mp hch).1
      have hch' : (y :: Q').Chain' (fun a b => b ∈ get_neighbors s a.1 a.2) :=
        (List.chain'_cons.mp hch).2
      have hc' : (y :: Q').getLast? = some c := by
        rw [← hc]; simp [List.getLast?_cons_cons]
      have hih := ih hch' y c rfl hc'
      have hstep : manhattan_distance x t ≤ manhattan_distance y t + 1 :=
        manhattan_consistent t hxy
      have : ε * manhattan_distance x t ≤ ε * manhattan_distance y t + ε :=
        le_trans (Nat.mul_le_mul_left ε hstep) (by ring_nf; omega)
      simp only [List.length_cons] at *
      omega

/-- A duplicate-free list of in-bounds cells has at most `rows * cols`
elements. -/
theorem length_le_area {s : PF} {l : List Cell} (hnd : l.Nodup)
    (hin : ∀ c ∈ l, inBounds s c) : l.length ≤ s.rows * s.cols := by
  classical
  have hcard : l.toFinset.card = l.length := List.toFinset_card_of_nodup hnd
  have hsub : l.toFinset ⊆ Finset.range s.rows ×ˢ Finset.range s.cols := by
    intro c hc
    rw [List.mem_toFinset] at hc
    have := hin c hc
    rw [Finset.mem_product, Finset.mem_range, Finset.mem_range]
    exact ⟨this.1, this.2⟩
  have := Finset.card_le_card hsub
  rw [hcard, Finset.card_product, Finset.card_range, Finset.card_range] at this
  exact this

/-! ## Relaxation step analysis -/

/-- Complete case analysis of one relaxation step. -/
theorem relaxStep_spec (s : PF) (algorithm : String) (current : Cell)
    (st1 : SState) (next_pos : Cell) :
    (s.grid next_pos.1 next_pos.2 ≠ 1 ∧
      (dictGet next_pos st1.cost_so_far = none ∨
        ∃ old, dictGet next_pos st1.cost_so_far = some old ∧
          (dictGet current st1.cost_so_far).getD 0 + 1 < old) ∧
      relaxStep s algorithm current st1 next_pos =
        { st1 with
          cost_so_far := (next_pos, (dictGet current st1.cost_so_far).getD 0 + 1)
            :: st1.cost_so_far,
          frontier := st1.frontier ++
            [(priorityOf algorithm ((dictGet current st1.cost_so_far).getD 0 + 1)
                (manhattan_distance next_pos s.fin),
              next_pos, (dictGet current st1.cost_so_far).getD 0 + 1)],
          came_from := (next_pos, some current) :: st1.came_from }) ∨
    (relaxStep s algorithm current st1 next_pos = st1 ∧
      (s.grid next_pos.1 next_pos.2 = 1 ∨
        ∃ old, dictGet next_pos st1.cost_so_far = some old ∧
          old ≤ (dictGet current st1.cost_so_far).getD 0 + 1)) := by
  unfold relaxStep
  by_cases hw : s.grid next_pos.1 next_pos.2 = 1
  · right
    rw [if_pos hw]
    exact ⟨rfl, Or.inl hw⟩
  · rw [if_neg hw]
    rcases hc : dictGet next_pos st1.cost_so_far with _ | old
    · left
      exact ⟨hw, Or.inl rfl, rfl⟩
    · by_cases himp : (dictGet current st1.cost_so_far).getD 0 + 1 < old
      · left
        refine ⟨hw, Or.inr ⟨old, rfl, himp⟩, ?_⟩
        simp only [decide_eq_true himp]
        rfl
      · right
        refine ⟨?_, Or.inr ⟨old, rfl, by omega⟩⟩
        simp only [decide_eq_false himp]
        rfl

/-! ## Search invariants -/

theorem path_extend {s : PF} {P : List Cell} {c b : Cell} {n : Nat}
    (hP : ValidPath s P) (hh : P.head? = some s.start) (hl : P.getLast? = some c)
    (hlen : P.length ≤ n) (hb : b ∈ get_neighbors s c.1 c.2) :
    ∃ Q, ValidPath s Q ∧ Q.head? = some s.start ∧ Q.getLast? = some b ∧
      Q.length ≤ n + 1 := by
  have hne : P ≠ [] := by intro h; subst h; simp at hh
  refine ⟨P ++ [b], validPath_append_one hP hl hb, ?_, ?_, ?_⟩
  · rw [List.head?_append_of_ne_nil _ hne]; exact hh
  · rw [List.getLast?_append_cons]; rfl
  · simp; omega

theorem relax_core {s : PF} (alg : String) {cur : Cell} {kcur : Nat}
    {st1 : SState} {b : Cell}
    (hc : CoreInv s st1)
    (hkcur : dictGet cur st1.cost_so_far = some kcur)
    (hcur_in : inBounds s cur) (hcur_nw : s.grid cur.1 cur.2 ≠ 1)
    (hb : b ∈ get_neighbors s cur.1 cur.2) :
    RelaxOut s cur kcur st1 (relaxStep s alg cur st1 b) ∧
      ∃ kb, dictGet b (relaxStep s alg cur st1 b).cost_so_far = some kb ∧
        kb ≤ kcur + 1 := by
  have hbin := (get_neighbors_inBounds hb).1
  have hbnw := (get_neighbors_inBounds hb).2
  have hbcur : b ≠ cur := by
    intro h; subst h; exact not_mem_get_neighbors_self s b hb
  rcases relaxStep_spec s alg cur st1 b with ⟨hnw, himp, hpost⟩ | ⟨hpost, hold⟩
  · -- update case
    rw [hkcur] at hpost himp
    simp only [Option.getD_some] at hpost himp
    have hbs : b ≠ s.start := by
      intro h; subst h
      rcases himp with hnone | ⟨old, hbold, hblt⟩
      · rw [hc.cost_start] at hnone; exact Option.noConfusion hnone
      · rw [hc.cost_start] at hbold
        have : old = 0 := by injection hbold; omega
        omega
    rw [hpost]
    constructor
    · refine ⟨⟨hc.start_inb, hc.start_nw, ?_, hc.visited_wf, hc.visited_nodup,
        ?_, hc.explored_sub, hc.explored_nodup, ?_, ?_, ?_, ?_, ?_, ?_, ?_, ?_, ?_⟩,
        ?_, rfl, rfl, ?_, ?_, ?_⟩
      · -- frontier_wf
        intro e he
        rcases List.mem_append.mp he with he | he
        · obtain ⟨hi, hw, k, hk, hkg⟩ := hc.frontier_wf e he
          refine ⟨hi, hw, ?_⟩
          rw [dictGet_cons]
          by_cases hcb : b = e.2.1
          · rw [if_pos hcb]
            refine ⟨kcur + 1, rfl, ?_⟩
            rcases himp with hnone | ⟨old, hbold, hblt⟩
            · rw [hcb] at hnone; rw [hnone] at hk; exact Option.noConfusion hk
            · rw [hcb] at hbold; rw [hbold] at hk
              have : old = k := by injection hk
              omega
          · rw [if_neg hcb]; exact ⟨k, hk, hkg⟩
        · simp at he
          rw [he]
          exact ⟨hbin, hbnw, kcur + 1, dictGet_self _ _ _, le_refl _⟩
      · -- visited_cost
        intro c hcv
        rw [dictGet_cons]
        by_cases hcb : b = c
        · rw [if_pos hcb]; rfl
        · rw [if_neg hcb]; exact hc.visited_cost c hcv
      · -- cost_start
        rw [dictGet_ne hbs]; exact hc.cost_start
      · -- came_start
        rw [dictGet_ne hbs]; exact hc.came_start
      · -- came_none
        intro c hcc
        rw [dictGet_cons] at hcc
        by_cases hcb : b = c
        · rw [if_pos hcb] at hcc; exact absurd hcc (by simp)
        · rw [if_neg hcb] at hcc; exact hc.came_none c hcc
      · -- came_cost
        intro c
        rw [dictGet_cons, dictGet_cons]
        by_cases hcb : b = c
        · rw [if_pos hcb, if_pos hcb]; rfl
        · rw [if_neg hcb, if_neg hcb]; exact hc.came_cost c
      · -- came_step
        intro c q hq
        rw [dictGet_cons] at hq
        by_cases hcb : b = c
        · rw [if_pos hcb] at hq
          have hqcur : q = cur := by
            injection hq with hq'
            injection hq' with hq2
            exact hq2.symm
          subst hqcur; subst hcb
          refine ⟨hb, hcur_in, hcur_nw, kcur + 1, kcur, dictGet_self _ _ _, ?_, le_refl _⟩
          rw [dictGet_ne hbcur]
          exact hkcur
        · rw [if_neg hcb] at hq
          obtain ⟨hn, hqin, hqnw, kc, kq, hkc, hkq, hle⟩ := hc.came_step c q hq
          refine ⟨hn, hqin, hqnw, kc, ?_⟩
          rw [dictGet_ne hcb]
          by_cases hbq : b = q
          · refine ⟨kcur + 1, hkc, ?_, ?_⟩
            · rw [dictGet_cons, if_pos hbq]
            · rcases himp with hnone | ⟨old, hbold, hblt⟩
              · rw [hbq] at hnone; rw [hnone] at hkq; exact Option.noConfusion hkq
              · rw [hbq] at hbold; rw [hbold] at hkq
                have : old = kq := by injection hkq
                omega
          · refine ⟨kq, hkc, ?_, hle⟩
            rw [dictGet_cons, if_neg hbq]; exact hkq
      · -- cost_real
        intro c k hk
        rw [dictGet_cons] at hk
        by_cases hcb : b = c
        · rw [if_pos hcb] at hk
          have hkk : k = kcur + 1 := by injection hk with h'; omega
          subst hkk; subst hcb
          obtain ⟨P, hP, hh, hl, hlen⟩ := hc.cost_real cur kcur hkcur
          exact path_extend hP hh hl hlen hb
        · rw [if_neg hcb] at hk
          exact hc.cost_real c k hk
      · -- unvisited_frontier
        intro c k hcv hk
        rw [dictGet_cons] at hk
        by_cases hcb : b = c
        · rw [if_pos hcb] at hk
          have hkk : k = kcur + 1 := by injection hk with h'; omega
          subst hkk; subst hcb
          exact ⟨priorityOf alg (kcur + 1) (manhattan_distance b s.fin),
            List.mem_append.mpr (Or.inr (by simp))⟩
        · rw [if_neg hcb] at hk
          obtain ⟨p, hp⟩ := hc.unvisited_frontier c k hcv hk
          exact ⟨p, List.mem_append.mpr (Or.inl hp)⟩
      · -- lens_eq
        simp [hc.lens_eq]
      · -- cost_le_len
        intro c k hk
        rw [dictGet_cons] at hk
        simp only [List.length_cons]
        by_cases hcb : b = c
        · rw [if_pos hcb] at hk
          have hkk : k = kcur + 1 := by injection hk with h'; omega
          have := hc.cost_le_len cur kcur hkcur
          omega
        · rw [if_neg hcb] at hk
          have := hc.cost_le_len c k hk
          omega
      · -- cost_cur
        rw [dictGet_ne hbcur]
        exact hkcur
      · -- cost_mono
        intro c k hk
        rw [dictGet_cons]
        by_cases hcb : b = c
        · rw [if_pos hcb]
          refine ⟨kcur + 1, rfl, ?_⟩
          rcases himp with hnone | ⟨old, hbold, hblt⟩
          · rw [hcb] at hnone; rw [hnone] at hk; exact Option.noConfusion hk
          · rw [hcb] at hbold; rw [hbold] at hk
            have : old = k := by injection hk
            omega
        · rw [if_neg hcb]; exact ⟨k, hk, le_refl _⟩
      · -- frontier_len
        simp
      · -- frontier_old
        intro e he; exact List.mem_append.mpr (Or.inl he)
    · exact ⟨kcur + 1, dictGet_self _ _ _, le_refl _⟩
  · -- no-update case
    rw [hpost]
    refine ⟨⟨hc, hkcur, rfl, rfl, fun c k hk => ⟨k, hk, le_refl _⟩, by omega,
      fun e he => he⟩, ?_⟩
    rcases hold with hw | ⟨old, hbold, hle⟩
    · exact absurd hw hbnw
    · rw [hkcur] at hle
      simp only [Option.getD_some] at hle
      exact ⟨old, hbold, hle⟩

theorem relax_opt {s : PF} {alg : String} {eps : Nat} {cur : Cell} {kcur : Nat}
    {st1 : SState} {b : Cell}
    (hc : CoreInv s st1) (hO : CoreOpt s eps st1)
    (hX : ∀ a ∈ st1.visited, a ≠ cur → ∀ k, dictGet a st1.cost_so_far = some k →
      ∀ b' ∈ get_neighbors s a.1 a.2,
        ∃ kb, dictGet b' st1.cost_so_far = some kb ∧ kb ≤ k + 1)
    (hpri : ∀ g h, priorityOf alg g h = g + eps * h)
    (hkcur : dictGet cur st1.cost_so_far = some kcur)
    (hb : b ∈ get_neighbors s cur.1 cur.2) :
    CoreOpt s eps (relaxStep s alg cur st1 b) ∧
      (∀ a ∈ (relaxStep s alg cur st1 b).visited, a ≠ cur →
        ∀ k, dictGet a (relaxStep s alg cur st1 b).cost_so_far = some k →
          ∀ b' ∈ get_neighbors s a.1 a.2,
            ∃ kb, dictGet b' (relaxStep s alg cur st1 b).cost_so_far = some kb ∧
              kb ≤ k + 1) := by
  have hbcur : b ≠ cur := by
    intro h; subst h; exact not_mem_get_neighbors_self s b hb
  rcases relaxStep_spec s alg cur st1 b with ⟨hnw, himp, hpost⟩ | ⟨hpost, hold⟩
  · -- update case
    rw [hkcur] at hpost himp
    simp only [Option.getD_some] at hpost himp
    have hbv : b ∉ st1.visited := by
      intro hbv
      rcases himp with hnone | ⟨old, hbold, hblt⟩
      · have := hc.visited_cost b hbv
        rw [hnone] at this; exact Bool.noConfusion this
      · obtain ⟨P, hP, hh, hl, hlen⟩ := hc.cost_real cur kcur hkcur
        obtain ⟨Q, hQ, hQh, hQl, hQlen⟩ := path_extend hP hh hl hlen hb
        have := hO.visited_opt b hbv old hbold Q hQ hQh hQl
        omega
    rw [hpost]
    constructor
    · constructor
      · -- frontier_pri
        intro e he
        rcases List.mem_append.mp he with he | he
        · exact hO.frontier_pri e he
        · simp at he
          rw [he]
          left
          simp only
          exact hpri (kcur + 1) (manhattan_distance b s.fin)
      · -- visited_opt
        intro a hav k hk
        have hab : b ≠ a := by
          intro h; subst h; exact hbv hav
        rw [dictGet_cons, if_neg hab] at hk
        exact hO.visited_opt a hav k hk
    · -- preserved exempted closure
      intro a hav hane k hk b' hb'
      have hab : b ≠ a := by
        intro h; subst h; exact hbv hav
      rw [dictGet_cons, if_neg hab] at hk
      obtain ⟨kb, hkb, hkble⟩ := hX a hav hane k hk b' hb'
      rw [dictGet_cons]
      by_cases hbb' : b = b'
      · rw [if_pos hbb']
        refine ⟨kcur + 1, rfl, ?_⟩
        rcases himp with hnone | ⟨old, hbold, hblt⟩
        · rw [hbb'] at hnone; rw [hnone] at hkb; exact Option.noConfusion hkb
        · rw [hbb'] at hbold; rw [hbold] at hkb
          have : old = kb := by injection hkb
          omega
      · rw [if_neg hbb']
        exact ⟨kb, hkb, hkble⟩
  · -- no-update case
    rw [hpost]
    exact ⟨hO, hX⟩

theorem expand_core_fold {s : PF} (alg : String) {cur : Cell} {kcur : Nat}
    (hcur_in : inBounds s cur) (hcur_nw : s.grid cur.1 cur.2 ≠ 1) :
    ∀ (L : List Cell) (st1 : SState), CoreInv s st1 →
      dictGet cur st1.cost_so_far = some kcur →
      (∀ b ∈ L, b ∈ get_neighbors s cur.1 cur.2) →
      ExpandOut s cur kcur st1 (L.foldl (relaxStep s alg cur) st1) L.length ∧
        ∀ b ∈ L, ∃ kb,
          dictGet b (L.foldl (relaxStep s alg cur) st1).cost_so_far = some kb ∧
            kb ≤ kcur + 1 := by
  intro L
  induction L with
  | nil =>
    intro st1 hc hk _
    exact ⟨⟨hc, hk, rfl, rfl, fun c k hk' => ⟨k, hk', le_refl _⟩,
      fun e he => he, by simp⟩, by simp⟩
  | cons b L' ih =>
    intro st1 hc hk hL
    have hb : b ∈ get_neighbors s cur.1 cur.2 := hL b (by simp)
    obtain ⟨ro, kb, hkb, hkble⟩ := relax_core alg hc hk hcur_in hcur_nw hb
    have hL' : ∀ b' ∈ L', b' ∈ get_neighbors s cur.1 cur.2 := by
      intro b' hb'; exact hL b' (by simp [hb'])
    obtain ⟨eo, hfacts⟩ := ih (relaxStep s alg cur st1 b) ro.core ro.cost_cur hL'
    rw [List.foldl_cons]
    constructor
    · refine ⟨eo.core, eo.cost_cur, ?_, ?_, ?_, ?_, ?_⟩
      · rw [eo.vis_eq, ro.vis_eq]
      · rw [eo.exp_eq, ro.exp_eq]
      · intro c k hk'
        obtain ⟨k1, hk1, hk1le⟩ := ro.cost_mono c k hk'
        obtain ⟨k2, hk2, hk2le⟩ := eo.cost_mono c k1 hk1
        exact ⟨k2, hk2, le_trans hk2le hk1le⟩
      · intro e he
        exact eo.frontier_old e (ro.frontier_old e he)
      · have h1 := ro.frontier_len
        have h2 := eo.frontier_len
        simp only [List.length_cons]
        omega
    · intro b' hb'
      rcases List.mem_cons.mp hb' with rfl | hb'
      · obtain ⟨k2, hk2, hk2le⟩ := eo.cost_mono b' kb hkb
        exact ⟨k2, hk2, le_trans hk2le hkble⟩
      · exact hfacts b' hb'

theorem expand_opt_fold {s : PF} (alg : String) {eps : Nat} {cur : Cell} {kcur : Nat}
    (hcur_in : inBounds s cur) (hcur_nw : s.grid cur.1 cur.2 ≠ 1)
    (hpri : ∀ g h, priorityOf alg g h = g + eps * h) :
    ∀ (L : List Cell) (st1 : SState), CoreInv s st1 → CoreOpt s eps st1 →
      (∀ a ∈ st1.visited, a ≠ cur → ∀ k, dictGet a st1.cost_so_far = some k →
        ∀ b' ∈ get_neighbors s a.1 a.2,
          ∃ kb, dictGet b' st1.cost_so_far = some kb ∧ kb ≤ k + 1) →
      dictGet cur st1.cost_so_far = some kcur →
      (∀ b ∈ L, b ∈ get_neighbors s cur.1 cur.2) →
      CoreOpt s eps (L.foldl (relaxStep s alg cur) st1) ∧
        (∀ a ∈ (L.foldl (relaxStep s alg cur) st1).visited, a ≠ cur →
          ∀ k, dictGet a (L.foldl (relaxStep s alg cur) st1).cost_so_far = some k →
            ∀ b' ∈ get_neighbors s a.1 a.2,
              ∃ kb, dictGet b' (L.foldl (relaxStep s alg cur) st1).cost_so_far
                = some kb ∧ kb ≤ k + 1) := by
  intro L
  induction L with
  | nil => intro st1 _ hO hX _ _; exact ⟨hO, hX⟩
  | cons b L' ih =>
    intro st1 hc hO hX hk hL
    have hb : b ∈ get_neighbors s cur.1 cur.2 := hL b (by simp)
    obtain ⟨hO2, hX2⟩ := relax_opt hc hO hX hpri hk hb
    obtain ⟨ro, -⟩ := relax_core alg hc hk hcur_in hcur_nw hb
    have hL' : ∀ b' ∈ L', b' ∈ get_neighbors s cur.1 cur.2 := by
      intro b' hb'; exact hL b' (by simp [hb'])
    rw [List.foldl_cons]
    exact ih (relaxStep s alg cur st1 b) ro.core hO2 hX2 ro.cost_cur hL'

theorem getLast?_mem_list {α : Type} {l : List α} {x : α}
    (h : l.getLast? = some x) : x ∈ l := by
  obtain ⟨hne, rfl⟩ := List.mem_getLast?_eq_getLast (by rw [h]; rfl)
  exact List.getLast_mem hne

/-- The key step of the optimality argument: for A*- or Dijkstra-shaped
priorities, a freshly popped cell's recorded cost is at most the edge count
of any valid path from start to it. -/
theorem pop_opt {s : PF} {eps : Nat} {st : SState} {pc : Nat} {cur : Cell}
    {gc : Nat} {rest : List Entry}
    (hB : BaseInv s st) (hO : OptInv s eps st) (heps : eps ≤ 1)
    (hpop : popMin st.frontier = some ((pc, cur, gc), rest))
    (hnv : cur ∉ st.visited) :
    ∀ k, dictGet cur st.cost_so_far = some k →
      ∀ P, ValidPath s P → P.head? = some s.start → P.getLast? = some cur →
        k + 1 ≤ P.length := by
  intro k hk P hP hh hl
  have hmem : (pc, cur, gc) ∈ st.frontier := popMin_mem hpop
  have hmin := popMin_min hpop
  have hPne : P ≠ [] := by intro h; subst h; simp at hh
  rcases exists_first_split st.visited P with hall | ⟨P1, bb, P2, hPeq, hP1, hbb⟩
  · exact absurd (hall cur (getLast?_mem_list hl)) hnv
  · have hlen : P.length = P1.length + 1 + P2.length := by
      rw [hPeq]; simp; omega
    -- cost of the first unvisited cell on the path is at most its index
    have hbbcost : ∃ kb, dictGet bb st.cost_so_far = some kb ∧ kb ≤ P1.length := by
      cases P1 with
      | nil =>
        have hbbs : bb = s.start := by
          rw [hPeq] at hh; simp at hh; exact hh
        subst hbbs
        exact ⟨0, hB.cost_start, by simp⟩
      | cons x P1' =>
        have hne : (x :: P1') ≠ ([] : List Cell) := by simp
        have hlast1 : (x :: P1').getLast? = some ((x :: P1').getLast hne) :=
          List.getLast?_eq_getLast_of_ne_nil hne
        set a := (x :: P1').getLast hne with ha_def
        have ha_vis : a ∈ st.visited := hP1 a (List.getLast_mem hne)
        have hadj : bb ∈ get_neighbors s a.1 a.2 := by
          have hch : P.Chain' (fun u v => v ∈ get_neighbors s u.1 u.2) := hP.2
          rw [hPeq] at hch
          have := (List.chain'_append.mp hch).2.2
          exact this a (by rw [hlast1]; rfl) bb rfl
        have ha_cost : ∃ ka, dictGet a st.cost_so_far = some ka := by
          have := hB.visited_cost a ha_vis
          rcases hka : dictGet a st.cost_so_far with _ | ka
          · rw [hka] at this; exact Bool.noConfusion this
          · exact ⟨ka, rfl⟩
        obtain ⟨ka, hka⟩ := ha_cost
        -- the prefix is a valid path from start to a
        have hpre : ValidPath s (x :: P1') := by
          rw [hPeq] at hP
          exact validPath_append_left hP
        have hpre_h : (x :: P1').head? = some s.start := by
          rw [hPeq] at hh; simp at hh ⊢; exact hh
        have hopt := hO.visited_opt a ha_vis ka hka (x :: P1') hpre hpre_h hlast1
        obtain ⟨kb, hkb, hkble⟩ := hO.visited_closed_le a ha_vis ka hka bb hadj
        refine ⟨kb, hkb, ?_⟩
        simp only [List.length_cons] at hopt ⊢
        omega
    obtain ⟨kb, hkb, hkblen⟩ := hbbcost
    obtain ⟨pb, hpb⟩ := hB.unvisited_frontier bb kb hbb hkb
    have hpb_pri := hO.frontier_pri (pb, bb, kb) hpb
    have hsuffix : ValidPath s (bb :: P2) := by
      rw [hPeq] at hP
      exact validPath_append_right hP
    have hlast2 : (bb :: P2).getLast? = some cur := by
      rw [hPeq, List.getLast?_append_cons] at hl
      exact hl
    have hchain := manhattan_chain heps s.fin (bb :: P2) hsuffix.2 bb cur rfl hlast2
    simp only [List.length_cons, Nat.add_sub_cancel] at hchain
    have hple : pc ≤ pb := entryLe_pri (hmin _ hpb)
    have hpc_pri := hO.frontier_pri (pc, cur, gc) hmem
    obtain ⟨-, -, kc, hkc, hkcg⟩ := hB.frontier_wf (pc, cur, gc) hmem
    have hkcg2 : kc ≤ gc := hkcg
    clear hkcg
    have hkkc : k = kc := by rw [hk] at hkc; injection hkc
    subst hkkc
    simp only at hpc_pri hpb_pri
    rcases hpc_pri with hpc_pri | ⟨hcs, hgc0, hpc0⟩
    · rcases hpb_pri with hpb_pri | ⟨hbs, hkb0, hpb0⟩
      · -- both regular entries
        rw [hpc_pri, hpb_pri] at hple
        generalize hmc : eps * manhattan_distance cur s.fin = A at hple hchain
        generalize hmb : eps * manhattan_distance bb s.fin = B at hple hchain
        omega
      · -- bb is the initial start entry: its priority is 0
        rw [hpb0, hpc_pri] at hple
        generalize hmc : eps * manhattan_distance cur s.fin = A at hple
        omega
    · -- cur is the initial start entry: cur = start with cost 0
      have : dictGet cur st.cost_so_far = some 0 := by
        rw [hcs]; exact hB.cost_start
      rw [hk] at this
      have hk0 : k = 0 := Option.some.inj this
      have : 1 ≤ P.length := by
        cases P with
        | nil => exact absurd rfl hPne
        | cons _ _ => simp
      omega

theorem baseInv_init (s : PF) (alg : String) (h1 : inBounds s s.start)
    (h2 : s.grid s.start.1 s.start.2 ≠ 1) : BaseInv s (initState s alg) := by
  refine ⟨⟨h1, h2, ?_, ?_, ?_, ?_, ?_, ?_, ?_, ?_, ?_, ?_, ?_, ?_, ?_, ?_, ?_⟩, ?_⟩
  · -- frontier_wf
    intro e he
    simp [initState] at he
    rw [he]
    exact ⟨h1, h2, 0, dictGet_self _ _ _, le_refl _⟩
  · intro c hc; simp [initState] at hc
  · simp [initState]
  · intro c hc; simp [initState] at hc
  · intro c hc; simp [initState] at hc
  · simp [initState]
  · exact dictGet_self _ _ _
  · exact dictGet_self _ _ _
  · -- came_none
    intro c hc
    simp only [initState, dictGet_cons] at hc
    by_cases hsc : s.start = c
    · exact hsc.symm
    · rw [if_neg hsc] at hc; exact Option.noConfusion hc
  · -- came_cost
    intro c
    simp only [initState, dictGet_cons]
    by_cases hsc : s.start = c
    · rw [if_pos hsc, if_pos hsc]; rfl
    · rw [if_neg hsc, if_neg hsc]; rfl
  · -- came_step
    intro c q hc
    simp only [initState, dictGet_cons] at hc
    by_cases hsc : s.start = c
    · rw [if_pos hsc] at hc
      exact absurd hc (by simp)
    · rw [if_neg hsc] at hc; exact absurd hc (by simp [dictGet])
  · -- cost_real
    intro c k hc
    simp only [initState, dictGet_cons] at hc
    by_cases hsc : s.start = c
    · rw [if_pos hsc] at hc
      have hk0 : k = 0 := by
        have := Option.some.inj hc; omega
      subst hk0; subst hsc
      exact ⟨[s.start], validPath_singleton h1 h2, rfl, rfl, by simp⟩
    · rw [if_neg hsc] at hc; exact absurd hc (by simp [dictGet])
  · -- unvisited_frontier
    intro c k _ hc
    simp only [initState, dictGet_cons] at hc
    by_cases hsc : s.start = c
    · rw [if_pos hsc] at hc
      have hk0 : k = 0 := (Option.some.inj hc).symm
      subst hk0; subst hsc
      exact ⟨initPriority s alg, by simp [initState]⟩
    · rw [if_neg hsc] at hc; exact absurd hc (by simp [dictGet])
  · simp [initState]
  · -- cost_le_len
    intro c k hc
    simp only [initState, dictGet_cons] at hc
    by_cases hsc : s.start = c
    · rw [if_pos hsc] at hc
      have : k = 0 := (Option.some.inj hc).symm
      simp [initState, this]
    · rw [if_neg hsc] at hc; exact absurd hc (by simp [dictGet])
  · -- visited_closed
    intro a ha; simp [initState] at ha

theorem optInv_init (s : PF) (alg : String) (eps : Nat)
    (hinit : initPriority s alg = 0) : OptInv s eps (initState s alg) := by
  refine ⟨⟨?_, ?_⟩, ?_⟩
  · intro e he
    simp [initState] at he
    rw [he, hinit]
    right
    exact ⟨rfl, rfl, rfl⟩
  · intro a ha; simp [initState] at ha
  · intro a ha; simp [initState] at ha

theorem baseInv_skip {s : PF} {st : SState} {pc : Nat} {cur : Cell} {gc : Nat}
    {rest : List Entry} (hB : BaseInv s st)
    (hpop : popMin st.frontier = some ((pc, cur, gc), rest))
    (hcv : cur ∈ st.visited) : BaseInv s { st with frontier := rest } := by
  refine ⟨⟨hB.start_inb, hB.start_nw, ?_, hB.visited_wf, hB.visited_nodup,
    hB.visited_cost, hB.explored_sub, hB.explored_nodup, hB.cost_start,
    hB.came_start, hB.came_none, hB.came_cost, hB.came_step, hB.cost_real,
    ?_, hB.lens_eq, hB.cost_le_len⟩, hB.visited_closed⟩
  · intro e he
    exact hB.frontier_wf e (popMin_subset hpop e he)
  · intro c k hcvv hk
    obtain ⟨p, hp⟩ := hB.unvisited_frontier c k hcvv hk
    rcases popMin_cover hpop _ hp with heq | hrest
    · exfalso
      have : c = cur := by
        have := congrArg (fun e : Entry => e.2.1) heq
        simpa using this
      exact hcvv (this ▸ hcv)
    · exact ⟨p, hrest⟩

theorem optInv_skip {s : PF} {eps : Nat} {st : SState} {pc : Nat} {cur : Cell}
    {gc : Nat} {rest : List Entry} (hO : OptInv s eps st)
    (hpop : popMin st.frontier = some ((pc, cur, gc), rest)) :
    OptInv s eps { st with frontier := rest } := by
  refine ⟨⟨?_, hO.visited_opt⟩, hO.visited_closed_le⟩
  intro e he
  exact hO.frontier_pri e (popMin_subset hpop e he)

theorem coreInv_fresh {s : PF} {st : SState} {pc : Nat} {cur : Cell} {gc : Nat}
    {rest : List Entry} (hB : BaseInv s st)
    (hpop : popMin st.frontier = some ((pc, cur, gc), rest))
    (hcv : cur ∉ st.visited) :
    CoreInv s { st with
      frontier := rest,
      visited := cur :: st.visited,
      explored := st.explored ++ [cur] } ∧
      inBounds s cur ∧ s.grid cur.1 cur.2 ≠ 1 ∧
      ∃ kc, dictGet cur st.cost_so_far = some kc := by
  obtain ⟨hin, hnw, kc, hkc, -⟩ := hB.frontier_wf _ (popMin_mem hpop)
  have hce : cur ∉ st.explored := fun h => hcv (hB.explored_sub cur h)
  refine ⟨⟨hB.start_inb, hB.start_nw, ?_, ?_, ?_, ?_, ?_, ?_, hB.cost_start,
    hB.came_start, hB.came_none, hB.came_cost, hB.came_step, hB.cost_real,
    ?_, hB.lens_eq, hB.cost_le_len⟩, hin, hnw, kc, hkc⟩
  · intro e he
    exact hB.frontier_wf e (popMin_subset hpop e he)
  · intro c hcc
    rcases List.mem_cons.mp hcc with rfl | hcc
    · exact ⟨hin, hnw, List.mem_append.mpr (Or.inr (by simp))⟩
    · obtain ⟨h1, h2, h3⟩ := hB.visited_wf c hcc
      exact ⟨h1, h2, List.mem_append.mpr (Or.inl h3)⟩
  · exact List.Nodup.cons hcv hB.visited_nodup
  · intro c hcc
    rcases List.mem_cons.mp hcc with rfl | hcc
    · rw [hkc]; rfl
    · exact hB.visited_cost c hcc
  · intro c hcc
    rcases List.mem_append.mp hcc with hcc | hcc
    · exact List.mem_cons_of_mem _ (hB.explored_sub c hcc)
    · simp at hcc; rw [hcc]; simp
  · rw [List.nodup_append]
    exact ⟨hB.explored_nodup, by simp, by
      intro x hx hx'
      simp at hx'
      rw [hx'] at hx
      exact hce hx⟩
  · intro c k hcvv hk
    have hcne : c ≠ cur := by
      intro h; exact hcvv (by rw [h]; simp)
    have hcvv' : c ∉ st.visited := by
      intro h; exact hcvv (List.mem_cons_of_mem _ h)
    obtain ⟨p, hp⟩ := hB.unvisited_frontier c k hcvv' hk
    rcases popMin_cover hpop _ hp with heq | hrest
    · exfalso
      have : c = cur := by
        have := congrArg (fun e : Entry => e.2.1) heq
        simpa using this
      exact hcne this
    · exact ⟨p, hrest⟩

theorem searchLoop_succ_some {s : PF} {alg : String} {fuel : Nat} {st : SState}
    {pc : Nat} {cur : Cell} {gc : Nat} {rest : List Entry}
    (hpop : popMin st.frontier = some ((pc, cur, gc), rest)) :
    searchLoop s alg (Nat.succ fuel) st =
      if cur ∈ st.visited then searchLoop s alg fuel { st with frontier := rest }
      else if s.grid cur.1 cur.2 = 1 then
        searchLoop s alg fuel { st with
          frontier := rest,
          visited := cur :: st.visited }
      else if cur = s.fin then freshState st cur rest
      else searchLoop s alg fuel (expand s alg cur (freshState st cur rest)) := by
  conv_lhs => unfold searchLoop
  rw [hpop]
  rfl

theorem searchLoop_succ_none {s : PF} {alg : String} {fuel : Nat} {st : SState}
    (hpop : popMin st.frontier = none) :
    searchLoop s alg (Nat.succ fuel) st = st := by
  conv_lhs => unfold searchLoop
  rw [hpop]

/-- Main run lemma: starting from an invariant state with enough fuel, the
search loop either exhausts the frontier without reaching `end`, or halts
by popping `end` from some invariant state.  `Q` is an auxiliary invariant
(instantiated with `True` and with the strategy invariant). -/
theorem searchLoop_run (s : PF) (alg : String) (Q : SState → Prop)
    (hQskip : ∀ st pc cur gc rest, BaseInv s st → Q st →
      popMin st.frontier = some ((pc, cur, gc), rest) → cur ∈ st.visited →
      Q { st with frontier := rest })
    (hQfresh : ∀ st pc cur gc rest, BaseInv s st → Q st →
      popMin st.frontier = some ((pc, cur, gc), rest) → cur ∉ st.visited →
      cur ≠ s.fin → Q (expand s alg cur (freshState st cur rest))) :
    ∀ fuel st, BaseInv s st → Q st → s.fin ∉ st.explored →
      measureOf s st ≤ fuel →
      (BaseInv s (searchLoop s alg fuel st) ∧ Q (searchLoop s alg fuel st) ∧
        (searchLoop s alg fuel st).frontier = [] ∧
        s.fin ∉ (searchLoop s alg fuel st).explored ∧
        (∃ t, (searchLoop s alg fuel st).explored = st.explored ++ t)) ∨
      (∃ stp pc gc rest, BaseInv s stp ∧ Q stp ∧
        popMin stp.frontier = some ((pc, s.fin, gc), rest) ∧
        s.fin ∉ stp.visited ∧ s.fin ∉ stp.explored ∧
        (∃ t, stp.explored = st.explored ++ t) ∧
        searchLoop s alg fuel st = freshState stp s.fin rest) := by
  intro fuel
  induction fuel with
  | zero =>
    intro st hB hQ hfe hmu
    left
    have hfr : st.frontier = [] := by
      unfold measureOf at hmu
      have : st.frontier.length = 0 := by omega
      exact List.length_eq_zero.mp this
    have h0 : searchLoop s alg 0 st = st := rfl
    rw [h0]
    exact ⟨hB, hQ, hfr, hfe, ⟨[], by simp⟩⟩
  | succ fuel ih =>
    intro st hB hQ hfe hmu
    rcases hpop : popMin st.frontier with _ | ⟨⟨pc, cur, gc⟩, rest⟩
    · rw [searchLoop_succ_none hpop]
      left
      exact ⟨hB, hQ, popMin_eq_none hpop, hfe, ⟨[], by simp⟩⟩
    · have hflen : rest.length + 1 = st.frontier.length := popMin_length hpop
      rw [searchLoop_succ_some hpop]
      by_cases hcv : cur ∈ st.visited
      · rw [if_pos hcv]
        have hB1 := baseInv_skip hB hpop hcv
        have hQ1 := hQskip st pc cur gc rest hB hQ hpop hcv
        have hmu1 : measureOf s { st with frontier := rest } ≤ fuel := by
          unfold measureOf at hmu ⊢
          simp only at *
          omega
        exact ih { st with frontier := rest } hB1 hQ1 hfe hmu1
      · rw [if_neg hcv]
        obtain ⟨hcore3, hin, hnw, kc, hkc⟩ := coreInv_fresh hB hpop hcv
        rw [if_neg hnw]
        by_cases hfin : cur = s.fin
        · rw [if_pos hfin]
          right
          subst hfin
          exact ⟨st, pc, gc, rest, hB, hQ, hpop, hcv, hfe, ⟨[], by simp⟩, rfl⟩
        · rw [if_neg hfin]
          have hL : ∀ b ∈ get_neighbors s cur.1 cur.2,
              b ∈ get_neighbors s cur.1 cur.2 := fun b hb => hb
          obtain ⟨eo, hcover⟩ := expand_core_fold alg hin hnw
            (get_neighbors s cur.1 cur.2) (freshState st cur rest) hcore3 hkc hL
          have heq : (get_neighbors s cur.1 cur.2).foldl (relaxStep s alg cur)
              (freshState st cur rest) = expand s alg cur (freshState st cur rest) := rfl
          rw [heq] at eo hcover
          have hvis : (expand s alg cur (freshState st cur rest)).visited =
              cur :: st.visited := eo.vis_eq
          have hexp : (expand s alg cur (freshState st cur rest)).explored =
              st.explored ++ [cur] := eo.exp_eq
          have hBE : BaseInv s (expand s alg cur (freshState st cur rest)) := by
            refine ⟨eo.core, ?_⟩
            intro a ha b hb
            rw [hvis] at ha
            rcases List.mem_cons.mp ha with rfl | ha
            · obtain ⟨kb, hkb, -⟩ := hcover b hb
              rw [hkb]; rfl
            · have := hB.visited_closed a ha b hb
              rcases hkb : dictGet b st.cost_so_far with _ | kb
              · rw [hkb] at this; exact Bool.noConfusion this
              · obtain ⟨kb', hkb', -⟩ := eo.cost_mono b kb hkb
                rw [hkb']; rfl
          have hQE := hQfresh st pc cur gc rest hB hQ hpop hcv hfin
          have hfeE : s.fin ∉ (expand s alg cur (freshState st cur rest)).explored := by
            rw [hexp]
            intro hmem
            rcases List.mem_append.mp hmem with h | h
            · exact hfe h
            · simp at h; exact hfin h.symm
          have hmuE : measureOf s (expand s alg cur (freshState st cur rest)) ≤ fuel := by
            have h1 := eo.frontier_len
            have h2 := get_neighbors_length_le s cur.1 cur.2
            have h3 : (expand s alg cur (freshState st cur rest)).visited.length ≤
                s.rows * s.cols := by
              apply length_le_area (eo.core.visited_nodup)
              intro c hc
              exact (eo.core.visited_wf c hc).1
            rw [hvis] at h3
            unfold measureOf at hmu ⊢
            rw [hvis]
            simp only [freshState, List.length_cons] at *
            omega
          rcases ih _ hBE hQE hfeE hmuE with
            ⟨h1, h2, h3, h4, t, h5⟩ | ⟨stp, pc', gc', rest', h1, h2, h3, h4, h5, ⟨t, h6⟩, h7⟩
          · left
            refine ⟨h1, h2, h3, h4, ⟨[cur] ++ t, ?_⟩⟩
            rw [h5, hexp, List.append_assoc]
          · right
            refine ⟨stp, pc', gc', rest', h1, h2, h3, h4, h5, ⟨[cur] ++ t, ?_⟩, h7⟩
            rw [h6, hexp, List.append_assoc]

theorem optInv_fresh {s : PF} {alg : String} {eps : Nat} {st : SState} {pc : Nat}
    {cur : Cell} {gc : Nat} {rest : List Entry}
    (hB : BaseInv s st) (hO : OptInv s eps st) (heps : eps ≤ 1)
    (hpri : ∀ g h, priorityOf alg g h = g + eps * h)
    (hpop : popMin st.frontier = some ((pc, cur, gc), rest))
    (hcv : cur ∉ st.visited) :
    OptInv s eps (expand s alg cur (freshState st cur rest)) := by
  obtain ⟨hcore3, hin, hnw, kc, hkc⟩ := coreInv_fresh hB hpop hcv
  have hpopt := pop_opt hB hO heps hpop hcv
  have hO3 : CoreOpt s eps (freshState st cur rest) := by
    constructor
    · intro e he
      exact hO.frontier_pri e (popMin_subset hpop e he)
    · intro a ha k hk P hP hh hl
      rcases List.mem_cons.mp ha with rfl | ha
      · exact hpopt k hk P hP hh hl
      · exact hO.visited_opt a ha k hk P hP hh hl
  have hX3 : ∀ a ∈ (freshState st cur rest).visited, a ≠ cur →
      ∀ k, dictGet a (freshState st cur rest).cost_so_far = some k →
        ∀ b' ∈ get_neighbors s a.1 a.2,
          ∃ kb, dictGet b' (freshState st cur rest).cost_so_far = some kb ∧
            kb ≤ k + 1 := by
    intro a ha hane k hk b' hb'
    rcases List.mem_cons.mp ha with rfl | ha
    · exact absurd rfl hane
    · exact hO.visited_closed_le a ha k hk b' hb'
  have hL : ∀ b ∈ get_neighbors s cur.1 cur.2,
      b ∈ get_neighbors s cur.1 cur.2 := fun b hb => hb
  obtain ⟨hOE, hXE⟩ := expand_opt_fold alg hin hnw hpri
    (get_neighbors s cur.1 cur.2) (freshState st cur rest) hcore3 hO3 hX3 hkc hL
  obtain ⟨eo, hcover⟩ := expand_core_fold alg hin hnw
    (get_neighbors s cur.1 cur.2) (freshState st cur rest) hcore3 hkc hL
  have heq : (get_neighbors s cur.1 cur.2).foldl (relaxStep s alg cur)
      (freshState st cur rest) = expand s alg cur (freshState st cur rest) := rfl
  rw [heq] at hOE hXE eo hcover
  refine ⟨hOE, ?_⟩
  intro a ha k hk b hb
  by_cases hac : a = cur
  · subst hac
    have hkkc : k = kc := by
      rw [eo.cost_cur] at hk
      injection hk with h'; omega
    subst hkkc
    exact hcover b hb
  · exact hXE a ha hac k hk b hb

theorem reconstructAux_none (cf : List (Cell × Option Cell)) (f : Nat) :
    reconstructAux cf f none = [] := by
  cases f <;> rfl

/-- Walking `came_from` backwards from any cell with a recorded cost
reaches `start`, yielding (after reversal) a valid path from `start` whose
length is bounded by the recorded cost plus one. -/
theorem reconstruct_chain {s : PF} {st : SState} (hc : CoreInv s st) :
    ∀ k c, dictGet c st.cost_so_far = some k → inBounds s c →
      s.grid c.1 c.2 ≠ 1 →
      ∀ f, k + 1 ≤ f →
        ∃ A, reconstructAux st.came_from f (some c) = c :: A ∧
          ValidPath s ((c :: A).reverse) ∧
          ((c :: A).reverse).head? = some s.start ∧
          ((c :: A).reverse).getLast? = some c ∧
          (c :: A).length ≤ k + 1 := by
  intro k
  induction k using Nat.strong_induction_on with
  | _ k ih =>
    intro c hk hinb hnw f hf
    cases f with
    | zero => omega
    | succ f' =>
      have hcsome : ∃ v, dictGet c st.came_from = some v := by
        have h1 := hc.came_cost c
        rw [hk] at h1
        rcases hv : dictGet c st.came_from with _ | v
        · rw [hv] at h1; exact Bool.noConfusion h1
        · exact ⟨v, rfl⟩
      obtain ⟨v, hv⟩ := hcsome
      have haux : reconstructAux st.came_from (Nat.succ f') (some c) =
          c :: reconstructAux st.came_from f' ((dictGet c st.came_from).getD none) := rfl
      rcases v with _ | q
      · -- predecessor none: c is start
        have hcs : c = s.start := hc.came_none c hv
        rw [haux, hv]
        simp only [Option.getD_some]
        rw [reconstructAux_none]
        refine ⟨[], rfl, ?_, ?_, ?_, ?_⟩
        · simp only [List.reverse_cons, List.reverse_nil, List.nil_append]
          exact validPath_singleton hinb hnw
        · simp [hcs]
        · simp
        · simp
      · -- predecessor q
        obtain ⟨hadj, hqin, hqnw, kc', kq, hkc', hkq, hlt⟩ := hc.came_step c q hv
        have hkk : k = kc' := by rw [hk] at hkc'; injection hkc'
        subst hkk
        have hqlt : kq < k := by omega
        obtain ⟨A', hA', hval', hh', hl', hlen'⟩ :=
          ih kq hqlt q hkq hqin hqnw f' (by omega)
        rw [haux, hv]
        simp only [Option.getD_some]
        rw [hA']
        refine ⟨q :: A', rfl, ?_, ?_, ?_, ?_⟩
        · have : (c :: q :: A').reverse = (q :: A').reverse ++ [c] := by simp
          rw [this]
          exact validPath_append_one hval' hl' hadj
        · have : (c :: q :: A').reverse = (q :: A').reverse ++ [c] := by simp
          rw [this, List.head?_append_of_ne_nil]
          · exact hh'
          · simp
        · have : (c :: q :: A').reverse = (q :: A').reverse ++ [c] := by simp
          rw [this, List.getLast?_append_cons]
          rfl
        · simp only [List.length_cons] at hlen' ⊢
          omega

theorem relaxStep_explored (s : PF) (alg : String) (cur : Cell) (st : SState)
    (b : Cell) : (relaxStep s alg cur st b).explored = st.explored := by
  rcases relaxStep_spec s alg cur st b with ⟨-, -, h⟩ | ⟨h, -⟩ <;> rw [h]

theorem expand_explored (s : PF) (alg : String) (cur : Cell) :
    ∀ (L : List Cell) (st : SState),
      (L.foldl (relaxStep s alg cur) st).explored = st.explored := by
  intro L
  induction L with
  | nil => intro st; rfl
  | cons b L' ihL =>
    intro st
    rw [List.foldl_cons, ihL, relaxStep_explored]

/-- The exploration trace only ever grows (by appending at the end). -/
theorem searchLoop_explored (s : PF) (alg : String) :
    ∀ (fuel : Nat) (st : SState),
      ∃ t, (searchLoop s alg fuel st).explored = st.explored ++ t := by
  intro fuel
  induction fuel with
  | zero => intro st; exact ⟨[], by simp [searchLoop]⟩
  | succ fuel ih =>
    intro st
    rcases hpop : popMin st.frontier with _ | ⟨⟨pc, cur, gc⟩, rest⟩
    · rw [searchLoop_succ_none hpop]; exact ⟨[], by simp⟩
    · rw [searchLoop_succ_some hpop]
      by_cases hcv : cur ∈ st.visited
      · rw [if_pos hcv]; exact ih _
      · rw [if_neg hcv]
        by_cases hw : s.grid cur.1 cur.2 = 1
        · rw [if_pos hw]; exact ih _
        · rw [if_neg hw]
          by_cases hfin : cur = s.fin
          · rw [if_pos hfin]
            exact ⟨[cur], rfl⟩
          · rw [if_neg hfin]
            obtain ⟨t, ht⟩ := ih (expand s alg cur (freshState st cur rest))
            refine ⟨[cur] ++ t, ?_⟩
            rw [ht]
            have : (expand s alg cur (freshState st cur rest)).explored =
                st.explored ++ [cur] := expand_explored s alg cur _ _
            rw [this, List.append_assoc]

/-- When the frontier is exhausted, every cell reachable from `start` by a
valid path has been explored. -/
theorem exhaustion_complete {s : PF} {st : SState} (hB : BaseInv s st)
    (hfr : st.frontier = []) :
    ∀ c, (∃ P, ValidPath s P ∧ P.head? = some s.start ∧ P.getLast? = some c) →
      c ∈ st.explored := by
  intro c ⟨P, hP, hh, hl⟩
  rcases exists_first_split st.visited P with hall | ⟨P1, bb, P2, hPeq, hP1, hbb⟩
  · have hcv : c ∈ st.visited := hall c (getLast?_mem_list hl)
    exact (hB.visited_wf c hcv).2.2
  · exfalso
    have hbbcost : ∃ kb, dictGet bb st.cost_so_far = some kb := by
      cases P1 with
      | nil =>
        have hbbs : bb = s.start := by
          rw [hPeq] at hh; simp at hh; exact hh
        subst hbbs
        exact ⟨0, hB.cost_start⟩
      | cons x P1' =>
        have hne : (x :: P1') ≠ ([] : List Cell) := by simp
        have hlast1 : (x :: P1').getLast? = some ((x :: P1').getLast hne) :=
          List.getLast?_eq_getLast_of_ne_nil hne
        have ha_vis : (x :: P1').getLast hne ∈ st.visited :=
          hP1 _ (List.getLast_mem hne)
        have hadj : bb ∈ get_neighbors s ((x :: P1').getLast hne).1
            ((x :: P1').getLast hne).2 := by
          have hch : P.Chain' (fun u v => v ∈ get_neighbors s u.1 u.2) := hP.2
          rw [hPeq] at hch
          have := (List.chain'_append.mp hch).2.2
          exact this _ (by rw [hlast1]; rfl) bb rfl
        have := hB.visited_closed _ ha_vis bb hadj
        rcases hkb : dictGet bb st.cost_so_far with _ | kb
        · rw [hkb] at this; exact Bool.noConfusion this
        · exact ⟨kb, rfl⟩
    obtain ⟨kb, hkb⟩ := hbbcost
    obtain ⟨p, hp⟩ := hB.unvisited_frontier bb kb hbb hkb
    rw [hfr] at hp
    exact List.not_mem_nil _ hp

theorem find_path_unfold (s : PF) (alg : String) :
    find_path s alg =
      if rawPath s alg ≠ [] ∧ (rawPath s alg).head? = some s.start ∧
          ∀ c ∈ rawPath s alg, s.grid c.1 c.2 ≠ 1
      then (some (rawPath s alg), (runState s alg).explored)
      else (none, (runState s alg).explored) := rfl

/-- Complete analysis of one `find_path` call on a grid whose start cell is
in bounds and not a wall: either the frontier was exhausted without
reaching `end` and the result is `None`, or `end` was popped from an
invariant state and the returned path is a valid reconstruction. -/
theorem run_main (s : PF) (alg : String) (Q : SState → Prop)
    (hQinit : Q (initState s alg))
    (hQskip : ∀ st pc cur gc rest, BaseInv s st → Q st →
      popMin st.frontier = some ((pc, cur, gc), rest) → cur ∈ st.visited →
      Q { st with frontier := rest })
    (hQfresh : ∀ st pc cur gc rest, BaseInv s st → Q st →
      popMin st.frontier = some ((pc, cur, gc), rest) → cur ∉ st.visited →
      cur ≠ s.fin → Q (expand s alg cur (freshState st cur rest)))
    (h1 : inBounds s s.start) (h2 : s.grid s.start.1 s.start.2 ≠ 1) :
    (BaseInv s (runState s alg) ∧ Q (runState s alg) ∧
      (runState s alg).frontier = [] ∧ s.fin ∉ (runState s alg).explored ∧
      dictGet s.fin (runState s alg).cost_so_far = none ∧
      find_path s alg = (none, (runState s alg).explored)) ∨
    (∃ stp pc gc rest, BaseInv s stp ∧ Q stp ∧
      popMin stp.frontier = some ((pc, s.fin, gc), rest) ∧
      s.fin ∉ stp.visited ∧ s.fin ∉ stp.explored ∧
      runState s alg = freshState stp s.fin rest ∧
      ∃ kf, dictGet s.fin stp.cost_so_far = some kf ∧
        ValidPath s (rawPath s alg) ∧ (rawPath s alg).head? = some s.start ∧
        (rawPath s alg).getLast? = some s.fin ∧
        (rawPath s alg).length ≤ kf + 1 ∧
        find_path s alg = (some (rawPath s alg), (runState s alg).explored)) := by
  have hBi := baseInv_init s alg h1 h2
  have hmu : measureOf s (initState s alg) ≤ 4 * s.rows * s.cols + 1 := by
    unfold measureOf initState
    simp
    rw [Nat.mul_assoc]
    omega
  have hfe : s.fin ∉ (initState s alg).explored := by simp [initState]
  rcases searchLoop_run s alg Q hQskip hQfresh _ _ hBi hQinit hfe hmu with
    ⟨hB0, hQr0, hfr0, hfer0, -⟩ | ⟨stp, pc, gc, rest, hB, hQp, hpop, hvp, hep, -, hrun0⟩
  · left
    have hB : BaseInv s (runState s alg) := hB0
    have hQr : Q (runState s alg) := hQr0
    have hfr : (runState s alg).frontier = [] := hfr0
    have hfer : s.fin ∉ (runState s alg).explored := hfer0
    have hfv : s.fin ∉ (runState s alg).visited := by
      intro h
      exact hfer ((hB.visited_wf s.fin h).2.2)
    have hfc : dictGet s.fin (runState s alg).cost_so_far = none := by
      rcases hk : dictGet s.fin (runState s alg).cost_so_far with _ | kf
      · rfl
      · exfalso
        obtain ⟨p, hp⟩ := hB.unvisited_frontier s.fin kf hfv hk
        rw [hfr] at hp
        exact List.not_mem_nil _ hp
    have hfcame : dictGet s.fin (runState s alg).came_from = none := by
      have h1' := hB.came_cost s.fin
      rw [hfc] at h1'
      rcases hv : dictGet s.fin (runState s alg).came_from with _ | v
      · rfl
      · rw [hv] at h1'; exact Bool.noConfusion h1'
    have hraw : rawPath s alg = [s.fin] := by
      unfold rawPath
      have hstep : reconstructAux (runState s alg).came_from
          ((runState s alg).came_from.length + 2) (some s.fin) =
          s.fin :: reconstructAux (runState s alg).came_from
            ((runState s alg).came_from.length + 1)
            ((dictGet s.fin (runState s alg).came_from).getD none) := rfl
      rw [hstep, hfcame]
      simp only [Option.getD_none]
      rw [reconstructAux_none]
      rfl
    have hfs : s.fin ≠ s.start := by
      intro h
      rw [h, hB.cost_start] at hfc
      exact Option.noConfusion hfc
    refine ⟨hB, hQr, hfr, hfer, hfc, ?_⟩
    rw [find_path_unfold, if_neg]
    rintro ⟨-, hhd, -⟩
    rw [hraw] at hhd
    simp at hhd
    exact hfs hhd
  · right
    have hrun : runState s alg = freshState stp s.fin rest := hrun0
    obtain ⟨hfin_in, hfin_nw, kf, hkf, -⟩ := hB.frontier_wf _ (popMin_mem hpop)
    have hcame : (runState s alg).came_from = stp.came_from := by
      rw [hrun]; rfl
    have hflen : kf + 1 ≤ (runState s alg).came_from.length + 2 := by
      have ha := hB.cost_le_len s.fin kf hkf
      have hb := hB.lens_eq
      rw [hcame]
      omega
    obtain ⟨A, hA, hval, hhd, hlst, hlen⟩ :=
      reconstruct_chain hB.toCoreInv kf s.fin hkf hfin_in hfin_nw
        ((runState s alg).came_from.length + 2) hflen
    rw [hcame] at hA
    have hraw : rawPath s alg = (s.fin :: A).reverse := by
      unfold rawPath
      rw [hcame, hA]
    have hcond : rawPath s alg ≠ [] ∧ (rawPath s alg).head? = some s.start ∧
        ∀ c ∈ rawPath s alg, s.grid c.1 c.2 ≠ 1 := by
      refine ⟨?_, ?_, ?_⟩
      · rw [hraw]; simp
      · rw [hraw]; exact hhd
      · rw [hraw]; intro c hc; exact (hval.1 c hc).2
    refine ⟨stp, pc, gc, rest, hB, hQp, hpop, hvp, hep, hrun, kf, hkf, ?_, hcond.2.1,
      ?_, ?_, ?_⟩
    · rw [hraw]; exact hval
    · rw [hraw]; exact hlst
    · rw [hraw]; simp only [List.length_reverse]; exact hlen
    · rw [find_path_unfold, if_pos hcond]

/-! ## Claim theorems -/

theorem chain_mutual {s : PF} {P : List Cell} (h : ValidPath s P) :
    P.Chain' (fun a b => b ∈ get_neighbors s a.1 a.2 ∧
      a ∈ get_neighbors s b.1 b.2) := by
  obtain ⟨hmem, hch⟩ := h
  induction P with
  | nil => simp
  | cons a P ih =>
    cases P with
    | nil => simp
    | cons b P' =>
      rw [List.chain'_cons] at hch ⊢
      obtain ⟨hab, hch'⟩ := hch
      have ha := hmem a (by simp)
      refine ⟨⟨hab, get_neighbors_symm hab ha.1 ha.2⟩, ?_⟩
      exact ih (fun c hc => hmem c (List.mem_cons_of_mem _ hc)) hch'

/-- C2: any returned path starts at `start`, ends at `end`, proceeds through
mutually adjacent neighbor cells, and avoids walls. -/
theorem find_path_valid (s : PF) (alg : String)
    (h1 : inBounds s s.start) (h2 : s.grid s.start.1 s.start.2 ≠ 1) :
    ∀ P e, find_path s alg = (some P, e) →
      P.head? = some s.start ∧ P.getLast? = some s.fin ∧
      P.Chain' (fun a b => b ∈ get_neighbors s a.1 a.2 ∧
        a ∈ get_neighbors s b.1 b.2) ∧
      ∀ c ∈ P, s.grid c.1 c.2 ≠ 1 := by
  intro P e hfind
  rcases run_main s alg (fun _ => True) trivial (fun _ _ _ _ _ _ _ _ _ => trivial)
      (fun _ _ _ _ _ _ _ _ _ _ => trivial) h1 h2 with
    ⟨-, -, -, -, -, hres⟩ |
    ⟨stp, pc, gc, rest, -, -, -, -, -, -, kf, -, hval, hhd, hlst, -, hres⟩
  · rw [hfind] at hres
    exact absurd (congrArg Prod.fst hres) (by simp)
  · rw [hfind] at hres
    have hP : P = rawPath s alg := by
      have := congrArg Prod.fst hres
      simpa using this
    subst hP
    exact ⟨hhd, hlst, chain_mutual hval, fun c hc => (hval.1 c hc).2⟩

/-- C3: the search always terminates with an explored trace; the path is
`None` exactly when `end` is unreachable, and on failure the explored trace
is non-empty and covers every reachable non-wall cell. -/
theorem find_path_none_iff (s : PF) (alg : String)
    (h1 : inBounds s s.start) (h2 : s.grid s.start.1 s.start.2 ≠ 1) :
    ((find_path s alg).1 = none ↔ ¬ Reachable s) ∧
    ((find_path s alg).1 = none →
      (find_path s alg).2 ≠ [] ∧
      ∀ c, ReachableCell s c → c ∈ (find_path s alg).2) := by
  rcases run_main s alg (fun _ => True) trivial (fun _ _ _ _ _ _ _ _ _ => trivial)
      (fun _ _ _ _ _ _ _ _ _ _ => trivial) h1 h2 with
    ⟨hB, -, hfr, hfer, -, hres⟩ |
    ⟨stp, pc, gc, rest, -, -, -, -, -, -, kf, -, hval, hhd, hlst, -, hres⟩
  · -- exhaustion: no path exists
    have hnone : (find_path s alg).1 = none := by rw [hres]
    have hcover : ∀ c, ReachableCell s c → c ∈ (find_path s alg).2 := by
      intro c hc
      rw [hres]
      exact exhaustion_complete hB hfr c hc
    have hnr : ¬ Reachable s := by
      intro ⟨P, hP, hh, hl⟩
      exact hfer (exhaustion_complete hB hfr s.fin ⟨P, hP, hh, hl⟩)
    refine ⟨⟨fun _ => hnr, fun _ => hnone⟩, fun _ => ⟨?_, hcover⟩⟩
    have hst : s.start ∈ (find_path s alg).2 :=
      hcover s.start ⟨[s.start], validPath_singleton h1 h2, rfl, rfl⟩
    intro hnil
    rw [hnil] at hst
    exact List.not_mem_nil _ hst
  · -- success: a path exists
    have hsome : (find_path s alg).1 = some (rawPath s alg) := by rw [hres]
    have hr : Reachable s := ⟨rawPath s alg, hval, hhd, hlst⟩
    constructor
    · constructor
      · intro hn; rw [hn] at hsome; exact Option.noConfusion hsome
      · intro hnr; exact absurd hr hnr
    · intro hn; rw [hn] at hsome; exact absurd hsome (by simp)

theorem priorityOf_astar (g h : Nat) : priorityOf "astar" g h = g + 1 * h := by
  unfold priorityOf
  rw [if_pos rfl]
  omega

theorem priorityOf_dijkstra (g h : Nat) : priorityOf "dijkstra" g h = g + 0 * h := by
  unfold priorityOf
  rw [if_neg (by decide), if_pos rfl]
  omega

theorem initPriority_astar (s : PF) : initPriority s "astar" = 0 := by
  unfold initPriority
  rw [if_pos rfl]

theorem initPriority_dijkstra (s : PF) : initPriority s "dijkstra" = 0 := by
  unfold initPriority
  rw [if_neg (by decide), if_pos rfl]

/-- C1: for A* and Dijkstra, a returned path has minimum length (hence
minimum edge count) among all valid paths from `start` to `end`. -/
theorem find_path_optimal (s : PF) (alg : String)
    (halg : alg = "astar" ∨ alg = "dijkstra")
    (h1 : inBounds s s.start) (h2 : s.grid s.start.1 s.start.2 ≠ 1)
    (h3 : s.grid s.fin.1 s.fin.2 ≠ 1) :
    ∀ P e, find_path s alg = (some P, e) →
      ValidPath s P ∧ P.head? = some s.start ∧ P.getLast? = some s.fin ∧
      ∀ R, ValidPath s R → R.head? = some s.start → R.getLast? = some s.fin →
        P.length ≤ R.length := by
  have hex : ∃ eps : Nat, eps ≤ 1 ∧ (∀ g h, priorityOf alg g h = g + eps * h) ∧
      initPriority s alg = 0 := by
    rcases halg with rfl | rfl
    · exact ⟨1, le_refl _, priorityOf_astar, initPriority_astar s⟩
    · exact ⟨0, by omega, priorityOf_dijkstra, initPriority_dijkstra s⟩
  obtain ⟨eps, heps, hpri, hinit⟩ := hex
  intro P e hfind
  rcases run_main s alg (OptInv s eps) (optInv_init s alg eps hinit)
      (fun st pc cur gc rest hB hO hpop hcv => optInv_skip hO hpop)
      (fun st pc cur gc rest hB hO hpop hcv hne =>
        optInv_fresh hB hO heps hpri hpop hcv) h1 h2 with
    ⟨-, -, -, -, -, hres⟩ |
    ⟨stp, pc, gc, rest, hB, hO, hpop, hvp, -, -, kf, hkf, hval, hhd, hlst, hplen, hres⟩
  · rw [hfind] at hres
    exact absurd (congrArg Prod.fst hres) (by simp)
  · rw [hfind] at hres
    have hP : P = rawPath s alg := by
      have := congrArg Prod.fst hres
      simpa using this
    subst hP
    refine ⟨hval, hhd, hlst, ?_⟩
    intro R hR hRh hRl
    have hkbound := pop_opt hB hO heps hpop hvp kf hkf R hR hRh hRl
    omega

/-- C4: `find_path` is a function of the grid fields and the algorithm
name alone; equal inputs give identical explored traces and paths. -/
theorem find_path_deterministic (s t : PF) (alg : String)
    (hrows : s.rows = t.rows) (hcols : s.cols = t.cols)
    (hgrid : s.grid = t.grid) (hstart : s.start = t.start)
    (hfin : s.fin = t.fin) : find_path s alg = find_path t alg := by
  obtain ⟨r1, c1, g1, st1, f1⟩ := s
  obtain ⟨r2, c2, g2, st2, f2⟩ := t
  simp only at hrows hcols hgrid hstart hfin
  subst hrows; subst hcols; subst hgrid; subst hstart; subst hfin
  rfl

/-- C5: `get_neighbors` returns at most four in-bounds non-wall cells, in
the fixed east, south, west, north order with absent directions skipped. -/
theorem get_neighbors_spec (s : PF) (row col : Nat) :
    (get_neighbors s row col).length ≤ 4 ∧
    (∀ b ∈ get_neighbors s row col, inBounds s b ∧ s.grid b.1 b.2 ≠ 1) ∧
    get_neighbors s row col =
      (if row < s.rows ∧ col + 1 < s.cols ∧ s.grid row (col + 1) ≠ 1
        then [(row, col + 1)] else []) ++
      (if row + 1 < s.rows ∧ col < s.cols ∧ s.grid (row + 1) col ≠ 1
        then [(row + 1, col)] else []) ++
      (if row < s.rows ∧ 1 ≤ col ∧ col - 1 < s.cols ∧ s.grid row (col - 1) ≠ 1
        then [(row, col - 1)] else []) ++
      (if 1 ≤ row ∧ row - 1 < s.rows ∧ col < s.cols ∧ s.grid (row - 1) col ≠ 1
        then [(row - 1, col)] else []) :=
  ⟨get_neighbors_length_le s row col,
    fun b hb => get_neighbors_inBounds hb,
    get_neighbors_eq s row col⟩

theorem find_path_snd (s : PF) (alg : String) :
    (find_path s alg).2 = (runState s alg).explored := by
  rw [find_path_unfold]
  split <;> rfl

/-- The exploration trace of a completed run begins with `start`. -/
theorem runState_explored_head (s : PF) (alg : String)
    (h2 : s.grid s.start.1 s.start.2 ≠ 1) :
    ∃ t, (runState s alg).explored = s.start :: t := by
  unfold runState
  rw [show 4 * s.rows * s.cols + 1 = Nat.succ (4 * s.rows * s.cols) from rfl]
  have hpop0 : popMin (initState s alg).frontier =
      some ((initPriority s alg, s.start, 0), []) := rfl
  rw [searchLoop_succ_some hpop0]
  rw [if_neg (show s.start ∉ (initState s alg).visited by simp [initState])]
  rw [if_neg h2]
  by_cases hfin : s.start = s.fin
  · rw [if_pos hfin]
    exact ⟨[], rfl⟩
  · rw [if_neg hfin]
    obtain ⟨t, ht⟩ :=
      searchLoop_explored s alg (4 * s.rows * s.cols)
        (expand s alg s.start (freshState (initState s alg) s.start []))
    have hexp : (expand s alg s.start
        (freshState (initState s alg) s.start [])).explored = [s.start] :=
      expand_explored s alg s.start (get_neighbors s s.start.1 s.start.2)
        (freshState (initState s alg) s.start [])
    rw [hexp] at ht
    exact ⟨t, ht⟩

/-- C6: the explored sequence starts with `start` and has no duplicates. -/
theorem find_path_explored_spec (s : PF) (alg : String)
    (h1 : inBounds s s.start) (h2 : s.grid s.start.1 s.start.2 ≠ 1) :
    (find_path s alg).2.head? = some s.start ∧ (find_path s alg).2.Nodup := by
  constructor
  · rw [find_path_snd]
    obtain ⟨t, ht⟩ := runState_explored_head s alg h2
    rw [ht]
    rfl
  · rw [find_path_snd]
    rcases run_main s alg (fun _ => True) trivial (fun _ _ _ _ _ _ _ _ _ => trivial)
        (fun _ _ _ _ _ _ _ _ _ _ => trivial) h1 h2 with
      ⟨hB, -, -, -, -, -⟩ |
      ⟨stp, pc, gc, rest, hB, -, -, -, hep, hrun, -⟩
    · exact hB.explored_nodup
    · rw [hrun]
      show (stp.explored ++ [s.fin]).Nodup
      rw [List.nodup_append]
      refine ⟨hB.explored_nodup, by simp, ?_⟩
      intro x hx hx'
      simp at hx'
      rw [hx'] at hx
      exact hep hx

/-- C7: when `start == end` (and it is not a wall), every strategy returns
the single-cell path `[start]` and an explored trace containing `start`. -/
theorem find_path_start_eq_end (s : PF) (alg : String)
    (heq : s.start = s.fin) (h1 : inBounds s s.start)
    (h2 : s.grid s.start.1 s.start.2 ≠ 1) :
    ∃ e, find_path s alg = (some [s.start], e) ∧ s.start ∈ e := by
  have hrun : runState s alg = freshState (initState s alg) s.start [] := by
    unfold runState
    rw [show 4 * s.rows * s.cols + 1 = Nat.succ (4 * s.rows * s.cols) from rfl]
    rw [searchLoop_succ_some
      (show popMin (initState s alg).frontier =
        some ((initPriority s alg, s.start, 0), []) from rfl)]
    rw [if_neg (show s.start ∉ (initState s alg).visited by simp [initState])]
    rw [if_neg h2]
    rw [if_pos heq]
  have hcame : (runState s alg).came_from = [(s.start, none)] := by
    rw [hrun]; rfl
  have hraw : rawPath s alg = [s.start] := by
    unfold rawPath
    rw [hcame, ← heq]
    have hstep : reconstructAux [(s.start, none)]
        ([((s.start : Cell), (none : Option Cell))].length + 2) (some s.start) =
        s.start :: reconstructAux [(s.start, none)]
          ([((s.start : Cell), (none : Option Cell))].length + 1)
          ((dictGet s.start [(s.start, none)]).getD none) := rfl
    rw [hstep, dictGet_self]
    simp only [Option.getD_some]
    rw [reconstructAux_none]
    rfl
  have hexp : (runState s alg).explored = [s.start] := by
    rw [hrun]; rfl
  refine ⟨[s.start], ?_, by simp⟩
  rw [find_path_unfold, hraw, hexp]
  rw [if_pos]
  constructor
  · simp
  constructor
  · rfl
  · intro c hc
    simp at hc
    rw [hc]
    exact h2

/-- C9: `find_path` reads but never writes the visualizer fields: the state
after the call is the state before it. -/
theorem find_path_frame (s : PF) (alg : String) :
    (find_path_run s alg).2.grid = s.grid ∧
    (find_path_run s alg).2.start = s.start ∧
    (find_path_run s alg).2.fin = s.fin ∧
    (find_path_run s alg).2 = s :=
  ⟨rfl, rfl, rfl, rfl⟩

theorem priorityOf_other {alg : String} (ha : alg ≠ "astar")
    (hd : alg ≠ "dijkstra") : priorityOf alg = priorityOf "greedy" := by
  funext g h
  unfold priorityOf
  rw [if_neg ha, if_neg hd, if_neg (by decide : ¬("greedy" = "astar")),
    if_neg (by decide : ¬("greedy" = "dijkstra"))]

theorem initPriority_other {alg : String} (ha : alg ≠ "astar")
    (hd : alg ≠ "dijkstra") (s : PF) :
    initPriority s alg = initPriority s "greedy" := by
  unfold initPriority
  rw [if_neg ha, if_neg hd, if_neg (by decide : ¬("greedy" = "astar")),
    if_neg (by decide : ¬("greedy" = "dijkstra"))]

theorem searchLoop_congr {s : PF} {a b : String}
    (hp : priorityOf a = priorityOf b) :
    ∀ fuel st, searchLoop s a fuel st = searchLoop s b fuel st := by
  have hrelax : relaxStep s a = relaxStep s b := by
    funext cur st1 np
    unfold relaxStep
    rw [hp]
  have hexpand : expand s a = expand s b := by
    funext cur st
    unfold expand
    rw [hrelax]
  intro fuel
  induction fuel with
  | zero => intro st; rfl
  | succ fuel ih =>
    intro st
    rcases hpop : popMin st.frontier with _ | ⟨⟨pc, cur, gc⟩, rest⟩
    · rw [searchLoop_succ_none hpop, searchLoop_succ_none hpop]
    · rw [searchLoop_succ_some hpop, searchLoop_succ_some hpop]
      by_cases hcv : cur ∈ st.visited
      · rw [if_pos hcv, if_pos hcv, ih]
      · rw [if_neg hcv, if_neg hcv]
        by_cases hw : s.grid cur.1 cur.2 = 1
        · rw [if_pos hw, if_pos hw, ih]
        · rw [if_neg hw, if_neg hw]
          by_cases hfin : cur = s.fin
          · rw [if_pos hfin, if_pos hfin]
          · rw [if_neg hfin, if_neg hfin, hexpand, ih]

/-- C10: any algorithm name other than "astar" and "dijkstra" falls through
to the greedy branch and behaves exactly like "greedy". -/
theorem find_path_default_greedy (s : PF) (alg : String)
    (ha : alg ≠ "astar") (hd : alg ≠ "dijkstra") :
    find_path s alg = find_path s "greedy" := by
  have hp := priorityOf_other ha hd
  have hi := initPriority_other ha hd s
  have hinit : initState s alg = initState s "greedy" := by
    unfold initState
    rw [hi]
  unfold find_path
  rw [hinit, searchLoop_congr hp]

theorem chainB_iff (R : Cell → Cell → Bool) :
    ∀ l : List Cell, chainB R l = true ↔ l.Chain' (fun a b => R a b = true)
  | [] => by simp [chainB]
  | [a] => by simp [chainB]
  | a :: b :: l => by
    rw [List.chain'_cons]
    simp only [chainB, Bool.and_eq_true]
    rw [chainB_iff R (b :: l)]

theorem validPath_of_checks {s : PF} {P : List Cell}
    (h1 : P.all (fun c => decide (inBounds s c) &&
      decide (s.grid c.1 c.2 ≠ 1)) = true)
    (h2 : chainB (fun a b => decide (b ∈ get_neighbors s a.1 a.2)) P = true) :
    ValidPath s P := by
  constructor
  · intro c hc
    have := List.all_eq_true.mp h1 c hc
    rw [Bool.and_eq_true, decide_eq_true_eq, decide_eq_true_eq] at this
    exact this
  · have := (chainB_iff _ P).mp h2
    exact List.Chain'.imp (fun a b h => of_decide_eq_true h) this

set_option maxRecDepth 4000 in
theorem maze_astar_eval :
    find_path mazePF "astar" =
      (some [(1, 1), (1, 2), (1, 3), (1, 4), (1, 5), (1, 6), (1, 7), (1, 8), (1, 9), (1, 10), (1, 11), (1, 12), (1, 13), (1, 14), (1, 15), (1, 16), (1, 17), (1, 18), (2, 18), (3, 18), (4, 18), (5, 18), (6, 18), (7, 18), (8, 18), (9, 18), (10, 18), (11, 18), (12, 18), (13, 18)],
       [(1, 1), (1, 2), (1, 3), (1, 4), (1, 5), (1, 6), (1, 7), (1, 8), (1, 9), (1, 10), (1, 11), (1, 12), (1, 13), (1, 14), (1, 15), (1, 16), (1, 17), (1, 18), (2, 1), (2, 18), (3, 1), (3, 18), (4, 1), (4, 2), (4, 3), (4, 4), (4, 18), (5, 1), (5, 2), (5, 3), (5, 4), (5, 18), (6, 1), (6, 2), (6, 18), (7, 1), (7, 2), (7, 3), (7, 4), (7, 18), (8, 1), (8, 18), (9, 1), (9, 2), (9, 3), (9, 4), (9, 18), (10, 1), (10, 2), (10, 3), (10, 4), (10, 18), (11, 1), (11, 2), (11, 3), (11, 4), (11, 18), (12, 1), (12, 18), (13, 1), (13, 2), (13, 3), (13, 4), (13, 5), (13, 6), (13, 7), (13, 8), (13, 9), (13, 10), (13, 11), (13, 12), (13, 13), (13, 14), (13, 15), (13, 16), (13, 17), (13, 18)]) := by
  rfl

set_option maxRecDepth 4000 in
theorem maze_dijkstra_eval :
    find_path mazePF "dijkstra" =
      (some [(1, 1), (1, 2), (1, 3), (1, 4), (1, 5), (1, 6), (1, 7), (1, 8), (1, 9), (1, 10), (1, 11), (1, 12), (1, 13), (1, 14), (1, 15), (1, 16), (1, 17), (1, 18), (2, 18), (3, 18), (4, 18), (5, 18), (6, 18), (7, 18), (8, 18), (9, 18), (10, 18), (11, 18), (12, 18), (13, 18)],
       [(1, 1), (0, 1), (1, 0), (1, 2), (2, 1), (0, 0), (0, 2), (1, 3), (2, 0), (3, 1), (0, 3), (1, 4), (3, 0), (4, 1), (0, 4), (1, 5), (4, 0), (4, 2), (5, 1), (0, 5), (1, 6), (4, 3), (5, 0), (5, 2), (6, 1), (0, 6), (1, 7), (4, 4), (5, 3), (6, 0), (6, 2), (7, 1), (0, 7), (1, 8), (5, 4), (7, 0), (7, 2), (8, 1), (0, 8), (1, 9), (7, 3), (8, 0), (9, 1), (0, 9), (1, 10), (7, 4), (9, 0), (9, 2), (10, 1), (0, 10), (1, 11), (9, 3), (10, 0), (10, 2), (11, 1), (0, 11), (1, 12), (9, 4), (10, 3), (11, 0), (11, 2), (12, 1), (0, 12), (1, 13), (10, 4), (11, 3), (12, 0), (13, 1), (0, 13), (1, 14), (11, 4), (13, 0), (13, 2), (14, 1), (0, 14), (1, 15), (13, 3), (14, 0), (14, 2), (0, 15), (1, 16), (13, 4), (14, 3), (0, 16), (1, 17), (13, 5), (14, 4), (0, 17), (1, 18), (13, 6), (14, 5), (0, 18), (1, 19), (2, 18), (13, 7), (14, 6), (0, 19), (2, 19), (3, 18), (13, 8), (14, 7), (3, 19), (4, 18), (13, 9), (14, 8), (4, 17), (4, 19), (5, 18), (13, 10), (14, 9), (4, 16), (5, 17), (5, 19), (6, 18), (13, 11), (14, 10), (5, 16), (6, 17), (6, 19), (7, 18), (13, 12), (14, 11), (6, 16), (7, 17), (7, 19), (8, 18), (13, 13), (14, 12), (7, 16), (8, 19), (9, 18), (13, 14), (14, 13), (9, 17), (9, 19), (10, 18), (13, 15), (14, 14), (9, 16), (10, 17), (10, 19), (11, 18), (13, 16), (14, 15), (10, 16), (11, 17), (11, 19), (12, 18), (13, 17), (14, 16), (11, 16), (12, 19), (13, 18)]) := by
  rfl

set_option maxRecDepth 4000 in
theorem maze_greedy_eval :
    find_path mazePF "greedy" =
      (some [(1, 1), (1, 2), (1, 3), (1, 4), (1, 5), (1, 6), (1, 7), (1, 8), (1, 9), (1, 10), (1, 11), (1, 12), (1, 13), (1, 14), (1, 15), (1, 16), (1, 17), (1, 18), (2, 18), (3, 18), (4, 18), (5, 18), (6, 18), (7, 18), (8, 18), (9, 18), (10, 18), (11, 18), (12, 18), (13, 18)],
       [(1, 1), (1, 2), (1, 3), (1, 4), (1, 5), (1, 6), (1, 7), (1, 8), (1, 9), (1, 10), (1, 11), (1, 12), (1, 13), (1, 14), (1, 15), (1, 16), (1, 17), (1, 18), (2, 18), (3, 18), (4, 18), (5, 18), (6, 18), (7, 18), (8, 18), (9, 18), (10, 18), (11, 18), (12, 18), (13, 18)]) := by
  rfl

set_option maxRecDepth 4000 in
/-- C8: on the concrete maze, A* returns a valid non-empty wall-free path
from (1,1) to (13,18); Dijkstra's path is at least as long and its explored
trace at least as large; greedy returns a valid path as well. -/

theorem maze_scenario :
    ∃ pa ea pd ed pg eg,
      find_path mazePF "astar" = (some pa, ea) ∧
      find_path mazePF "dijkstra" = (some pd, ed) ∧
      find_path mazePF "greedy" = (some pg, eg) ∧
      pa ≠ [] ∧ pa.head? = some (1, 1) ∧ pa.getLast? = some (13, 18) ∧
      (∀ c ∈ pa, mazePF.grid c.1 c.2 ≠ 1) ∧
      pa.length ≤ pd.length ∧ ea.length ≤ ed.length ∧
      ValidPath mazePF pg ∧ pg.head? = some (1, 1) ∧
      pg.getLast? = some (13, 18) := by
  refine ⟨_, _, _, _, _, _, maze_astar_eval, maze_dijkstra_eval,
    maze_greedy_eval, by decide, by decide, by decide, by decide, by decide,
    by decide, ?_, by decide, by decide⟩
  exact validPath_of_checks (by rfl) (by rfl)

theorem find_path_optimal_witness :
    ValidPath tinyPF [(0, 0), (0, 1)] ∧
    ([((0 : Nat), (0 : Nat)), (0, 1)]).head? = some tinyPF.start ∧
    ([((0 : Nat), (0 : Nat)), (0, 1)]).getLast? = some tinyPF.fin ∧
    ∀ R, ValidPath tinyPF R → R.head? = some tinyPF.start →
      R.getLast? = some tinyPF.fin →
      ([((0 : Nat), (0 : Nat)), (0, 1)]).length ≤ R.length :=
  find_path_optimal tinyPF "astar" (Or.inl rfl) (by decide) (by decide)
    (by decide) [(0, 0), (0, 1)] [(0, 0), (0, 1)] (by rfl)

theorem find_path_valid_witness :
    ([((0 : Nat), (0 : Nat)), (0, 1)]).head? = some tinyPF.start ∧
    ([((0 : Nat), (0 : Nat)), (0, 1)]).getLast? = some tinyPF.fin ∧
    ([((0 : Nat), (0 : Nat)), (0, 1)]).Chain'
      (fun a b => b ∈ get_neighbors tinyPF a.1 a.2 ∧
        a ∈ get_neighbors tinyPF b.1 b.2) ∧
    ∀ c ∈ [((0 : Nat), (0 : Nat)), (0, 1)], tinyPF.grid c.1 c.2 ≠ 1 :=
  find_path_valid tinyPF "greedy" (by decide) (by decide)
    [(0, 0), (0, 1)] [(0, 0), (0, 1)] (by rfl)

theorem find_path_none_iff_witness :
    (((find_path tinyPF "astar").1 = none ↔ ¬ Reachable tinyPF) ∧
      ((find_path tinyPF "astar").1 = none →
        (find_path tinyPF "astar").2 ≠ [] ∧
        ∀ c, ReachableCell tinyPF c → c ∈ (find_path tinyPF "astar").2)) :=
  find_path_none_iff tinyPF "astar" (by decide) (by decide)

theorem find_path_deterministic_witness :
    find_path tinyPF "dijkstra" = find_path tinyPF "dijkstra" :=
  find_path_deterministic tinyPF tinyPF "dijkstra" rfl rfl rfl rfl rfl

theorem find_path_explored_spec_witness :
    (find_path tinyPF "dijkstra").2.head? = some tinyPF.start ∧
    (find_path tinyPF "dijkstra").2.Nodup :=
  find_path_explored_spec tinyPF "dijkstra" (by decide) (by decide)

theorem find_path_start_eq_end_witness :
    ∃ e, find_path unitPF "greedy" = (some [unitPF.start], e) ∧
      unitPF.start ∈ e :=
  find_path_start_eq_end unitPF "greedy" rfl (by decide) (by decide)

theorem find_path_default_greedy_witness :
    find_path tinyPF "bfs" = find_path tinyPF "greedy" :=
  find_path_default_greedy tinyPF "bfs" (by decide) (by decide)
